import Mathlib

/-!
# Verification of the per-project semantic code index

Shallow embedding of the embedding-service core (XML chunker line ranges,
merkle chunk hashing, SQLite store with FTS mirror, incremental pipeline,
file watcher, and hybrid search helpers) together with proofs settling the
frozen specification claims.

Conventions used throughout:
* JavaScript numbers that are used as non-negative integers are modelled as
  `Nat`; where a subtraction can go negative the source value is modelled
  as `Int`.
* Floating-point scores are modelled as `ℚ` (the score arithmetic in the
  claims involves only `+ - * / max min` and comparisons, which agree with
  exact rational arithmetic on the values involved).
* `Float32Array` contents are modelled by their 32-bit payloads
  (`List Nat`, each element `< 2^32`); the backing `Buffer` is the
  little-endian byte list.
-/

namespace EmbeddingService

/-! ## Embedding byte blobs (db/sqlite.ts `insertChunk`, search dense path)

`insertChunk`/`updateChunk` persist `Buffer.from(embedding.buffer)` — the raw
bytes of the `Float32Array`.  Both read paths (`Pipeline.processFile`'s reuse
branch and the search engine's dense scoring) rebuild the vector with
`new Float32Array(chunk.embedding.buffer)`.  A 32-bit element is stored as
four little-endian bytes. -/

/-- Serialize a vector of 32-bit words (the bit patterns of the `Float32Array`
elements) to its underlying byte buffer, little endian. -/
def vecToBytes (v : List Nat) : List Nat :=
  v.flatMap fun x => [x % 256, (x / 256) % 256, (x / 65536) % 256, (x / 16777216) % 256]

/-- Reinterpret a byte buffer as a vector of 32-bit words, four bytes per
element, little endian (`new Float32Array(buffer)`). -/
def bytesToVec : List Nat → List Nat
  | b0 :: b1 :: b2 :: b3 :: rest => (b0 + b1 * 256 + b2 * 65536 + b3 * 16777216) :: bytesToVec rest
  | _ => []

/-! ## Adaptive top-k (`adaptiveTopK`, semantic-search tool) -/

/-- Maximum results allowed per query (`MAX_TOP_K`). -/
def MAX_TOP_K : Nat := 50

/-- Counts the maximal non-whitespace runs in a character list.  The flag
records whether the scan is currently inside a word. -/
def countWordsAux : Bool → List Char → Nat
  | _, [] => 0
  | false, c :: cs =>
    if c.isWhitespace then countWordsAux false cs else 1 + countWordsAux true cs
  | true, c :: cs =>
    if c.isWhitespace then countWordsAux false cs else countWordsAux true cs

/-- Number of words of a query: `query.split(/\s+/).filter(Boolean).length`,
i.e. the number of maximal non-whitespace runs. -/
def countQueryWords (query : String) : Nat :=
  countWordsAux false query.toList

/-- `adaptiveTopK(query, requestedK)` from the semantic-search tool:
dynamically determine K based on query word count. -/
def adaptiveTopK (query : String) (requestedK : Nat) : Nat :=
  let words := countQueryWords query
  if words ≤ 2 then
    min requestedK 8
  else if words ≤ 5 then
    requestedK
  else
    min (requestedK + 5) MAX_TOP_K

/-! ## Store model (db/sqlite.ts `SQLiteDB`)

The store has a `chunks` table (rowid-keyed, `AUTOINCREMENT`) and an FTS5
mirror `chunks_fts(chunk_id UNINDEXED, embedding_text)`.  Rows are modelled
with the columns the claims depend on; the remaining metadata columns
(resource/type names, semantic labels, context JSON, sequence tracking,
timestamps) influence neither row identity, the FTS mirror, nor the
pipeline's reuse decision, and are not modelled.  The separate
`sequence_references` table is likewise outside every claim. -/

/-- A row of the `chunks` table (modelled columns). -/
structure ChunkRow where
  id : Nat
  filePath : String
  fileHash : String
  chunkIndex : Nat
  startLine : Nat
  endLine : Nat
  contentHash : String
  /-- The `embedding BLOB` column: raw bytes of the `Float32Array`. -/
  embedding : List Nat
  deriving Repr, DecidableEq, Inhabited

/-- A row of the FTS5 mirror `chunks_fts`. -/
structure FtsRow where
  chunkId : Nat
  embeddingText : String
  deriving Repr, DecidableEq, Inhabited

/-- Store state: `AUTOINCREMENT` counter plus the two tables. -/
structure DB where
  nextId : Nat
  chunks : List ChunkRow
  fts : List FtsRow
  deriving Repr, DecidableEq

/-- A freshly initialized store (SQLite rowids start at 1). -/
def emptyDB : DB := ⟨1, [], []⟩

/-- The `ChunkMetadata` argument of `insertChunk`/`updateChunk`
(modelled fields). -/
structure ChunkMeta where
  filePath : String
  fileHash : String
  chunkIndex : Nat
  startLine : Nat
  endLine : Nat
  contentHash : String
  deriving Repr, DecidableEq, Inhabited

/-- `insertFts`: `INSERT INTO chunks_fts (chunk_id, embedding_text)`. -/
def insertFts (db : DB) (cid : Nat) (text : String) : DB :=
  { db with fts := db.fts ++ [⟨cid, text⟩] }

/-- `deleteFts`: `DELETE FROM chunks_fts WHERE chunk_id = ?`. -/
def deleteFts (db : DB) (cid : Nat) : DB :=
  { db with fts := db.fts.filter fun f => ¬ f.chunkId = cid }

/-- `updateFts`: FTS5 has no UPDATE, so delete then re-insert. -/
def updateFts (db : DB) (cid : Nat) (text : String) : DB :=
  insertFts (deleteFts db cid) cid text

/-- `insertChunk`: INSERT the row (rowid = `nextId`), then sync the FTS
mirror when `embeddingText` is truthy — the source guards with
`if (embeddingText)`, so an absent *or empty* string skips the FTS insert.
Returns `lastInsertRowid`. -/
def insertChunk (db : DB) (m : ChunkMeta) (embedding : List Nat)
    (text? : Option String) : Nat × DB :=
  let rid := db.nextId
  let row : ChunkRow :=
    ⟨rid, m.filePath, m.fileHash, m.chunkIndex, m.startLine, m.endLine, m.contentHash, embedding⟩
  let db1 : DB := { db with nextId := rid + 1, chunks := db.chunks ++ [row] }
  match text? with
  | some t => if t = "" then (rid, db1) else (rid, insertFts db1 rid t)
  | none => (rid, db1)

/-- The effect of `updateChunk`'s `UPDATE ... WHERE id = ?` on one row.
The SET list does not include `file_path`, so it is kept. -/
def applyMeta (r : ChunkRow) (m : ChunkMeta) (embedding : List Nat) : ChunkRow :=
  { r with
    fileHash := m.fileHash, chunkIndex := m.chunkIndex, startLine := m.startLine,
    endLine := m.endLine, contentHash := m.contentHash, embedding := embedding }

/-- `updateChunk`: UPDATE the row with the given id, then sync the FTS mirror
when `embeddingText` is truthy (`if (embeddingText)`: an absent or empty
string leaves the FTS mirror untouched). -/
def updateChunk (db : DB) (cid : Nat) (m : ChunkMeta) (embedding : List Nat)
    (text? : Option String) : DB :=
  let db1 : DB :=
    { db with chunks := db.chunks.map fun r => if r.id = cid then applyMeta r m embedding else r }
  match text? with
  | some t => if t = "" then db1 else updateFts db1 cid t
  | none => db1

/-- `deleteChunk`: delete the FTS row first, then the chunks row. -/
def deleteChunk (db : DB) (cid : Nat) : DB :=
  let db1 := deleteFts db cid
  { db1 with chunks := db1.chunks.filter fun r => ¬ r.id = cid }

/-- `deleteChunksByFile`: delete the FTS rows of every chunk of the file,
then `DELETE FROM chunks WHERE file_path = ?`. -/
def deleteChunksByFile (db : DB) (p : String) : DB :=
  let ids := (db.chunks.filter fun r => r.filePath = p).map fun r => r.id
  let db1 := ids.foldl deleteFts db
  { db1 with chunks := db1.chunks.filter (fun r => ¬ r.filePath = p) }

/-- `getChunksByFile`: `SELECT * FROM chunks WHERE file_path = ?`. -/
def getChunksByFile (db : DB) (p : String) : List ChunkRow :=
  db.chunks.filter fun r => r.filePath = p

/-- Number of FTS rows carrying the given `chunk_id`. -/
def ftsCount (db : DB) (cid : Nat) : Nat :=
  (db.fts.filter fun f => f.chunkId = cid).length

/-- The FTS mirror is bijective with the chunks table on `chunk_id`:
every chunks row has exactly one `chunks_fts` row and every `chunks_fts`
row has a matching chunks row. -/
def ftsBijection (db : DB) : Prop :=
  (∀ r ∈ db.chunks, ftsCount db r.id = 1) ∧
    (∀ f ∈ db.fts, ∃ r ∈ db.chunks, r.id = f.chunkId)

/-- Structural well-formedness maintained by SQLite itself: rowids are below
the autoincrement counter and are pairwise distinct (`id` is the PRIMARY
KEY). -/
def dbWF (db : DB) : Prop :=
  (∀ r ∈ db.chunks, r.id < db.nextId) ∧ (db.chunks.map fun r => r.id).Nodup

/-- Combined store invariant. -/
def DBInv (db : DB) : Prop := dbWF db ∧ ftsBijection db

/-- Store states reachable from a fresh store by the write operations, always
supplying a truthy (non-empty) `embedding_text` — the JS `if (embeddingText)`
guard skips the FTS sync otherwise — with every `updateChunk` aimed at an id
that is present in `chunks` (all pipeline call sites satisfy this: the id
always comes from a row just read from the store). -/
inductive Reachable : DB → Prop where
  | empty : Reachable emptyDB
  | insert (db : DB) (m : ChunkMeta) (emb : List Nat) (t : String) :
      Reachable db → ¬ t = "" → Reachable (insertChunk db m emb (some t)).2
  | update (db : DB) (cid : Nat) (m : ChunkMeta) (emb : List Nat) (t : String) :
      Reachable db → ¬ t = "" → (∃ r ∈ db.chunks, r.id = cid) →
      Reachable (updateChunk db cid m emb (some t))
  | delete (db : DB) (cid : Nat) :
      Reachable db → Reachable (deleteChunk db cid)
  | deleteByFile (db : DB) (p : String) :
      Reachable db → Reachable (deleteChunksByFile db p)

/-! ### Auxiliary lemmas about the store operations -/

/-- Number of FTS rows of a list carrying the given `chunk_id`. -/
def countId (l : List FtsRow) (i : Nat) : Nat :=
  (l.filter fun f => f.chunkId = i).length

theorem countId_append (l1 l2 : List FtsRow) (i : Nat) :
    countId (l1 ++ l2) i = countId l1 i + countId l2 i := by
  simp [countId, List.filter_append]

theorem countId_single (c : Nat) (t : String) (i : Nat) :
    countId [⟨c, t⟩] i = if c = i then 1 else 0 := by
  by_cases h : c = i <;> simp [countId, h]

theorem countId_eq_zero (l : List FtsRow) (i : Nat)
    (h : ∀ f ∈ l, ¬ f.chunkId = i) : countId l i = 0 := by
  simp only [countId, List.length_eq_zero]
  exact List.filter_eq_nil_iff.2 fun f hf => by simpa using h f hf

theorem countId_removeId (l : List FtsRow) (c i : Nat) :
    countId (l.filter fun f => ¬ f.chunkId = c) i
      = if c = i then 0 else countId l i := by
  induction l with
  | nil => by_cases h : c = i <;> simp [countId, h]
  | cons f fs ih =>
    by_cases hfc : f.chunkId = c <;> by_cases hfi : f.chunkId = i <;>
      by_cases hci : c = i <;>
      simp_all [countId, List.filter_cons]

theorem mem_removeId (l : List FtsRow) (c : Nat) (f : FtsRow) :
    f ∈ (l.filter fun g => ¬ g.chunkId = c) ↔ f ∈ l ∧ ¬ f.chunkId = c := by
  simp [List.mem_filter]

theorem countId_removeIds (l : List FtsRow) (ids : List Nat) (i : Nat) (h : ¬ i ∈ ids) :
    countId (l.filter fun f => ¬ f.chunkId ∈ ids) i = countId l i := by
  induction l with
  | nil => simp [countId]
  | cons f fs ih =>
    by_cases hf : f.chunkId ∈ ids
    · have hfi : ¬ f.chunkId = i := fun he => h (he ▸ hf)
      simp_all [countId, List.filter_cons]
    · by_cases hfi : f.chunkId = i <;> simp_all [countId, List.filter_cons]

/-- Normal form of `insertChunk` with a truthy `embeddingText` supplied. -/
theorem insertChunk_some (db : DB) (m : ChunkMeta) (emb : List Nat) (t : String)
    (ht : ¬ t = "") :
    (insertChunk db m emb (some t)).2 =
      ⟨db.nextId + 1,
        db.chunks ++
          [⟨db.nextId, m.filePath, m.fileHash, m.chunkIndex, m.startLine, m.endLine,
            m.contentHash, emb⟩],
        db.fts ++ [⟨db.nextId, t⟩]⟩ := by
  simp [insertChunk, insertFts, ht]

/-- Normal form of `updateChunk` with a truthy `embeddingText` supplied. -/
theorem updateChunk_some (db : DB) (cid : Nat) (m : ChunkMeta) (emb : List Nat) (t : String)
    (ht : ¬ t = "") :
    updateChunk db cid m emb (some t) =
      ⟨db.nextId,
        db.chunks.map fun r => if r.id = cid then applyMeta r m emb else r,
        (db.fts.filter fun f => ¬ f.chunkId = cid) ++ [⟨cid, t⟩]⟩ := by
  simp [updateChunk, updateFts, insertFts, deleteFts, ht]

/-- The `chunks` table after `updateChunk`, whatever the FTS sync did. -/
theorem updateChunk_chunks (db : DB) (cid : Nat) (m : ChunkMeta) (emb : List Nat)
    (text? : Option String) :
    (updateChunk db cid m emb text?).chunks
      = db.chunks.map fun r => if r.id = cid then applyMeta r m emb else r := by
  cases text? with
  | none => rfl
  | some t => by_cases ht : t = "" <;> simp [updateChunk, updateFts, insertFts, deleteFts, ht]

/-- The autoincrement counter after `updateChunk`. -/
theorem updateChunk_nextId (db : DB) (cid : Nat) (m : ChunkMeta) (emb : List Nat)
    (text? : Option String) :
    (updateChunk db cid m emb text?).nextId = db.nextId := by
  cases text? with
  | none => rfl
  | some t => by_cases ht : t = "" <;> simp [updateChunk, updateFts, insertFts, deleteFts, ht]

/-- The `chunks` table after `insertChunk`, whatever the FTS sync did. -/
theorem insertChunk_chunks (db : DB) (m : ChunkMeta) (emb : List Nat) (text? : Option String) :
    (insertChunk db m emb text?).2.chunks
      = db.chunks ++
          [⟨db.nextId, m.filePath, m.fileHash, m.chunkIndex, m.startLine, m.endLine,
            m.contentHash, emb⟩] := by
  cases text? with
  | none => rfl
  | some t => by_cases ht : t = "" <;> simp [insertChunk, insertFts, ht]

/-- The autoincrement counter after `insertChunk`. -/
theorem insertChunk_nextId (db : DB) (m : ChunkMeta) (emb : List Nat) (text? : Option String) :
    (insertChunk db m emb text?).2.nextId = db.nextId + 1 := by
  cases text? with
  | none => rfl
  | some t => by_cases ht : t = "" <;> simp [insertChunk, insertFts, ht]

/-- Normal form of `deleteChunk`. -/
theorem deleteChunk_eq (db : DB) (cid : Nat) :
    deleteChunk db cid =
      ⟨db.nextId, db.chunks.filter fun r => ¬ r.id = cid,
        db.fts.filter fun f => ¬ f.chunkId = cid⟩ := rfl

theorem foldl_deleteFts_nextId (ids : List Nat) (db : DB) :
    (ids.foldl deleteFts db).nextId = db.nextId := by
  induction ids generalizing db with
  | nil => rfl
  | cons i is ih => simp [List.foldl_cons, ih, deleteFts]

theorem foldl_deleteFts_chunks (ids : List Nat) (db : DB) :
    (ids.foldl deleteFts db).chunks = db.chunks := by
  induction ids generalizing db with
  | nil => rfl
  | cons i is ih => simp [List.foldl_cons, ih, deleteFts]

theorem foldl_deleteFts_fts (ids : List Nat) (db : DB) :
    (ids.foldl deleteFts db).fts = db.fts.filter fun f => ¬ f.chunkId ∈ ids := by
  induction ids generalizing db with
  | nil => simp
  | cons i is ih =>
    simp only [List.foldl_cons, ih, deleteFts, List.filter_filter]
    exact List.filter_congr fun a _ => by
      by_cases h1 : a.chunkId ∈ is <;> by_cases h2 : a.chunkId = i <;> simp [h1, h2]

/-- Normal form of `deleteChunksByFile`. -/
theorem deleteChunksByFile_eq (db : DB) (p : String) :
    deleteChunksByFile db p =
      ⟨db.nextId,
        db.chunks.filter fun r => ¬ r.filePath = p,
        db.fts.filter fun f =>
          ¬ f.chunkId ∈ ((db.chunks.filter fun r => r.filePath = p).map fun r => r.id)⟩ := by
  simp only [deleteChunksByFile, foldl_deleteFts_nextId, foldl_deleteFts_chunks,
    foldl_deleteFts_fts]

/-! ### Preservation of the store invariant -/

theorem DBInv_emptyDB : DBInv emptyDB := by
  refine ⟨⟨?_, ?_⟩, ?_, ?_⟩ <;> simp [emptyDB]

theorem DBInv_insertChunk (db : DB) (m : ChunkMeta) (emb : List Nat) (t : String)
    (ht : ¬ t = "") (h : DBInv db) : DBInv (insertChunk db m emb (some t)).2 := by
  obtain ⟨⟨hlt, hnd⟩, hcnt, hmem⟩ := h
  rw [insertChunk_some db m emb t ht]
  refine ⟨⟨?_, ?_⟩, ?_, ?_⟩
  · intro r hr
    rcases List.mem_append.1 hr with hr | hr
    · exact Nat.lt_succ_of_lt (hlt r hr)
    · simp only [List.mem_singleton] at hr
      subst hr
      exact Nat.lt_succ_self _
  · rw [List.map_append]
    refine List.Nodup.append hnd (by simp) ?_
    intro x hx hy
    simp only [List.mem_map] at hx
    obtain ⟨r, hr, hrx⟩ := hx
    simp only [List.map_cons, List.map_nil, List.mem_singleton] at hy
    exact absurd (hrx.trans hy) (Nat.ne_of_lt (hlt r hr))
  · intro r hr
    show countId _ r.id = 1
    rcases List.mem_append.1 hr with hr | hr
    · rw [countId_append, countId_single, if_neg (Nat.ne_of_gt (hlt r hr))]
      exact hcnt r hr
    · simp only [List.mem_singleton] at hr
      subst hr
      rw [countId_append, countId_single, if_pos rfl,
        countId_eq_zero db.fts db.nextId]
      intro f hf he
      obtain ⟨r', hr', hid⟩ := hmem f hf
      exact absurd (hid.trans he) (Nat.ne_of_lt (hlt r' hr'))
  · intro f hf
    rcases List.mem_append.1 hf with hf | hf
    · obtain ⟨r, hr, hid⟩ := hmem f hf
      exact ⟨r, List.mem_append_left _ hr, hid⟩
    · simp only [List.mem_singleton] at hf
      subst hf
      exact ⟨_, List.mem_append_right _ (List.mem_singleton_self _), rfl⟩

theorem DBInv_updateChunk (db : DB) (cid : Nat) (m : ChunkMeta) (emb : List Nat) (t : String)
    (ht : ¬ t = "") (h : DBInv db) (hex : ∃ r ∈ db.chunks, r.id = cid) :
    DBInv (updateChunk db cid m emb (some t)) := by
  obtain ⟨⟨hlt, hnd⟩, hcnt, hmem⟩ := h
  rw [updateChunk_some db cid m emb t ht]
  have hid : ∀ r : ChunkRow, (if r.id = cid then applyMeta r m emb else r).id = r.id := by
    intro r
    by_cases hr : r.id = cid <;> simp [hr, applyMeta]
  refine ⟨⟨?_, ?_⟩, ?_, ?_⟩
  · intro r hr
    obtain ⟨r0, hr0, hre⟩ := List.mem_map.1 hr
    have := hlt r0 hr0
    rw [← hre, hid]
    exact this
  · rw [List.map_map]
    have hcomp :
        ((fun r => r.id) ∘ fun r => if r.id = cid then applyMeta r m emb else r)
          = fun r : ChunkRow => r.id := by
      funext r
      by_cases hr : r.id = cid <;> simp [Function.comp, hr, applyMeta]
    rw [hcomp]
    exact hnd
  · intro r hr
    obtain ⟨r0, hr0, hre⟩ := List.mem_map.1 hr
    show countId _ r.id = 1
    rw [countId_append, countId_single, countId_removeId, ← hre, hid]
    by_cases hr0c : r0.id = cid
    · rw [hr0c, if_pos rfl, if_pos rfl]
    · rw [if_neg fun he => hr0c he.symm, if_neg fun he => hr0c he.symm,
        Nat.add_zero]
      exact hcnt r0 hr0
  · intro f hf
    rcases List.mem_append.1 hf with hf | hf
    · obtain ⟨hf1, -⟩ := (mem_removeId _ _ _).1 hf
      obtain ⟨r, hr, hrid⟩ := hmem f hf1
      refine ⟨if r.id = cid then applyMeta r m emb else r, List.mem_map_of_mem _ hr, ?_⟩
      rw [hid]
      exact hrid
    · simp only [List.mem_singleton] at hf
      subst hf
      obtain ⟨r, hr, hrid⟩ := hex
      refine ⟨if r.id = cid then applyMeta r m emb else r, List.mem_map_of_mem _ hr, ?_⟩
      rw [hid]
      exact hrid

theorem DBInv_deleteChunk (db : DB) (cid : Nat) (h : DBInv db) :
    DBInv (deleteChunk db cid) := by
  obtain ⟨⟨hlt, hnd⟩, hcnt, hmem⟩ := h
  rw [deleteChunk_eq]
  refine ⟨⟨?_, ?_⟩, ?_, ?_⟩
  · intro r hr
    exact hlt r (List.mem_of_mem_filter hr)
  · exact List.Nodup.sublist ((List.filter_sublist _).map _) hnd
  · intro r hr
    have hrm := List.mem_of_mem_filter hr
    have hrne : ¬ r.id = cid := by simpa using (List.mem_filter.1 hr).2
    show countId _ r.id = 1
    rw [countId_removeId, if_neg fun he => hrne he.symm]
    exact hcnt r hrm
  · intro f hf
    obtain ⟨hf1, hfne⟩ := (mem_removeId _ _ _).1 hf
    obtain ⟨r, hr, hrid⟩ := hmem f hf1
    refine ⟨r, List.mem_filter.2 ⟨hr, by simpa [hrid] using hfne⟩, hrid⟩

theorem DBInv_deleteChunksByFile (db : DB) (p : String) (h : DBInv db) :
    DBInv (deleteChunksByFile db p) := by
  obtain ⟨⟨hlt, hnd⟩, hcnt, hmem⟩ := h
  rw [deleteChunksByFile_eq]
  set ids := (db.chunks.filter fun r => r.filePath = p).map fun r => r.id with hids
  refine ⟨⟨?_, ?_⟩, ?_, ?_⟩
  · intro r hr
    exact hlt r (List.mem_of_mem_filter hr)
  · exact List.Nodup.sublist ((List.filter_sublist _).map _) hnd
  · intro r hr
    have hrm := List.mem_of_mem_filter hr
    have hrp : ¬ r.filePath = p := by simpa using (List.mem_filter.1 hr).2
    show countId _ r.id = 1
    rw [countId_removeIds]
    · exact hcnt r hrm
    · intro hin
      rw [hids] at hin
      obtain ⟨r', hr', he⟩ := List.mem_map.1 hin
      have hr'm := List.mem_of_mem_filter hr'
      have hr'p : r'.filePath = p := by simpa using (List.mem_filter.1 hr').2
      have : r' = r := List.inj_on_of_nodup_map hnd hr'm hrm he
      exact hrp (this ▸ hr'p)
  · intro f hf
    have hf1 : f ∈ db.fts ∧ ¬ f.chunkId ∈ ids := by
      simpa using List.mem_filter.1 hf
    obtain ⟨r, hr, hrid⟩ := hmem f hf1.1
    have hrp : ¬ r.filePath = p := by
      intro hp
      apply hf1.2
      rw [← hrid, hids]
      exact List.mem_map_of_mem _ (List.mem_filter.2 ⟨hr, by simpa using hp⟩)
    exact ⟨r, List.mem_filter.2 ⟨hr, by simpa using hrp⟩, hrid⟩

/-- `Reachable` states satisfy the full store invariant. -/
theorem reachable_DBInv {db : DB} (h : Reachable db) : DBInv db := by
  induction h with
  | empty => exact DBInv_emptyDB
  | insert db m emb t _ ht ih => exact DBInv_insertChunk db m emb t ht ih
  | update db cid m emb t _ ht hex ih => exact DBInv_updateChunk db cid m emb t ht ih hex
  | delete db cid _ ih => exact DBInv_deleteChunk db cid ih
  | deleteByFile db p _ ih => exact DBInv_deleteChunksByFile db p ih

/-! ## Incremental pipeline (`Pipeline.processFile`)

`processFile` re-chunks a file, matches each new chunk against the stored
chunks of the same path by the slot key `(chunk_index, start_line, end_line)`
and reuses, re-embeds or inserts accordingly; afterwards it deletes every
pre-existing row that was not matched.  The embedder is abstracted as a
function `embed : String → List Nat` from embedding text to stored bytes;
`embedCalls` records every text actually sent to it.  Reference linking
(`getSequenceDefinition`/`linkSequenceReference`) writes only the
`sequence_references` table and the parent-id remapping only the unmodelled
`parent_chunk_id` column, so both are omitted. -/

/-- A chunk produced by the chunker (`XMLChunk`, modelled fields). -/
structure NewChunk where
  filePath : String
  chunkIndex : Nat
  startLine : Nat
  endLine : Nat
  contentHash : String
  embeddingText : String
  deriving Repr, DecidableEq, Inhabited

/-- The `existingByLocation` map: built by inserting every existing chunk
under its `chunkIndex:startLine:endLine` key (later rows win) and then
looking the key up. -/
def lookupSlot (existing : List ChunkRow) (ci s e : Nat) : Option ChunkRow :=
  existing.foldl
    (fun acc r => if r.chunkIndex = ci ∧ r.startLine = s ∧ r.endLine = e then some r else acc)
    none

/-- Accumulator state of the per-chunk loop of `processFile`. -/
structure LoopState where
  db : DB
  matched : List Nat
  reused : Nat
  embedded : Nat
  embedCalls : List String
  deriving Repr, DecidableEq

/-- One iteration of the per-chunk loop of `processFile`: reuse the stored
embedding when the slot key matches with identical `content_hash`, re-embed
and overwrite when the slot matches with a different hash, insert otherwise. -/
def processChunkStep (embed : String → List Nat) (fileHash : String)
    (existing : List ChunkRow) (st : LoopState) (c : NewChunk) : LoopState :=
  let m : ChunkMeta :=
    ⟨c.filePath, fileHash, c.chunkIndex, c.startLine, c.endLine, c.contentHash⟩
  match lookupSlot existing c.chunkIndex c.startLine c.endLine with
  | some ex =>
    if ex.contentHash = c.contentHash then
      ⟨updateChunk st.db ex.id m ex.embedding (some c.embeddingText),
        st.matched ++ [ex.id], st.reused + 1, st.embedded, st.embedCalls⟩
    else
      ⟨updateChunk st.db ex.id m (embed c.embeddingText) (some c.embeddingText),
        st.matched ++ [ex.id], st.reused, st.embedded + 1,
        st.embedCalls ++ [c.embeddingText]⟩
  | none =>
    ⟨(insertChunk st.db m (embed c.embeddingText) (some c.embeddingText)).2,
      st.matched, st.reused, st.embedded + 1, st.embedCalls ++ [c.embeddingText]⟩

/-- The per-chunk loop of `processFile`. -/
def processChunksLoop (embed : String → List Nat) (fileHash : String)
    (existing : List ChunkRow) : List NewChunk → LoopState → LoopState
  | [], st => st
  | c :: cs, st =>
    processChunksLoop embed fileHash existing cs (processChunkStep embed fileHash existing st c)

/-- Whether a new chunk is a reuse hit against the stored chunks: its slot
key `(chunk_index, start_line, end_line)` is found in `existingByLocation`
and the stored chunk's `content_hash` equals the new chunk's. -/
def reuseHit (existing : List ChunkRow) (c : NewChunk) : Bool :=
  match lookupSlot existing c.chunkIndex c.startLine c.endLine with
  | some ex => ex.contentHash = c.contentHash
  | none => false

/-- Result of `processFile`. -/
structure PipelineResult where
  db : DB
  reused : Nat
  embedded : Nat
  deleted : Nat
  embedCalls : List String
  deriving Repr, DecidableEq

/-- `Pipeline.processFile`: match new chunks against stored chunks, then
delete every stored row of the file that was not matched. -/
def processFile (embed : String → List Nat) (filePath fileHash : String)
    (chunks : List NewChunk) (db : DB) : PipelineResult :=
  let existing := getChunksByFile db filePath
  let st := processChunksLoop embed fileHash existing chunks ⟨db, [], 0, 0, []⟩
  let toDelete := existing.filter fun ex => ¬ ex.id ∈ st.matched
  let db2 := toDelete.foldl (fun d ex => deleteChunk d ex.id) st.db
  ⟨db2, st.reused, st.embedded, toDelete.length, st.embedCalls⟩

/-- Example store for exercising `processFile`: one stored chunk of
`f.xml` with id 1 and embedding `[7]`, mirrored in FTS. -/
def exPipeDB : DB := ⟨2, [⟨1, "f.xml", "h0", 0, 1, 3, "ch", [7]⟩], [⟨1, "t0"⟩]⟩

/-- Example chunker output: one chunk at the same slot with the same
content hash as the stored one. -/
def exPipeChunks : List NewChunk := [⟨"f.xml", 0, 1, 3, "ch", "text"⟩]

/-! ## Merkle chunk hashing (db/merkle.ts `computeChunkHash`)

`computeChunkHash(xmlContent, metadata)` serializes
`{xml, type, intent, context}` with `JSON.stringify` and returns the SHA-256
hex digest of that string.  Both are modelled bit-exactly: `Json.stringify`
is JS `JSON.stringify` (no whitespace, insertion-ordered object keys,
standard string escaping) and `sha256Hex` is FIPS 180-4 SHA-256 over the
string's bytes (code points, which equal the UTF-8 bytes on the ASCII
inputs at issue). -/

/-- 2^32, the word modulus of SHA-256. -/
def MOD32 : Nat := 4294967296

/-- 32-bit right rotation. -/
def rotr32 (n x : Nat) : Nat := ((x >>> n) ||| (x <<< (32 - n))) % MOD32

def xor3 (a b c : Nat) : Nat := (a ^^^ b) ^^^ c

def sumSig0 (x : Nat) : Nat := xor3 (rotr32 2 x) (rotr32 13 x) (rotr32 22 x)

def sumSig1 (x : Nat) : Nat := xor3 (rotr32 6 x) (rotr32 11 x) (rotr32 25 x)

def smallSig0 (x : Nat) : Nat := xor3 (rotr32 7 x) (rotr32 18 x) (x >>> 3)

def smallSig1 (x : Nat) : Nat := xor3 (rotr32 17 x) (rotr32 19 x) (x >>> 10)

def chF (e f g : Nat) : Nat := (e &&& f) ^^^ ((e ^^^ 4294967295) &&& g)

def majF (a b c : Nat) : Nat := ((a &&& b) ^^^ (a &&& c)) ^^^ (b &&& c)

/-- The 64 SHA-256 round constants of FIPS 180-4, written in decimal. -/
def sha256K : List Nat :=
  [1116352408, 1899447441, 3049323471, 3921009573, 961987163,
   1508970993, 2453635748, 2870763221, 3624381080, 310598401,
   607225278, 1426881987, 1925078388, 2162078206, 2614888103,
   3248222580, 3835390401, 4022224774, 264347078, 604807628,
   770255983, 1249150122, 1555081692, 1996064986, 2554220882,
   2821834349, 2952996808, 3210313671, 3336571891, 3584528711,
   113926993, 338241895, 666307205, 773529912, 1294757372,
   1396182291, 1695183700, 1986661051, 2177026350, 2456956037,
   2730485921, 2820302411, 3259730800, 3345764771, 3516065817,
   3600352804, 4094571909, 275423344, 430227734, 506948616,
   659060556, 883997877, 958139571, 1322822218, 1537002063,
   1747873779, 1955562222, 2024104815, 2227730452, 2361852424,
   2428436474, 2756734187, 3204031479, 3329325298]

/-- The initial SHA-256 hash state of FIPS 180-4, written in decimal. -/
def sha256H0 : List Nat :=
  [1779033703, 3144134277, 1013904242, 2773480762,
   1359893119, 2600822924, 528734635, 1541459225]

/-- Pad a byte message to a multiple of 64 bytes (`0x80`, zeros, 64-bit
big-endian bit length). -/
def sha256pad (msg : List Nat) : List Nat :=
  let z := (119 - msg.length % 64) % 64
  let bitLen := msg.length * 8
  msg ++ 0x80 :: (List.replicate z 0 ++ (List.range 8).map fun i => (bitLen >>> ((7 - i) * 8)) % 256)

/-- Split a padded message into 64-byte blocks (the fuel, at least the
number of blocks, keeps the recursion structural). -/
def toBlocksAux : Nat → List Nat → List (List Nat)
  | 0, _ => []
  | _, [] => []
  | fuel + 1, a :: rest => List.take 64 (a :: rest) :: toBlocksAux fuel (List.drop 63 rest)

/-- Split a padded message into 64-byte blocks. -/
def toBlocks (l : List Nat) : List (List Nat) := toBlocksAux l.length l

/-- The 16 big-endian 32-bit words of a 64-byte block. -/
def blockWords (block : List Nat) : List Nat :=
  (List.range 16).map fun i =>
    (block.getD (4 * i) 0) <<< 24 + (block.getD (4 * i + 1) 0) <<< 16 +
      (block.getD (4 * i + 2) 0) <<< 8 + block.getD (4 * i + 3) 0

/-- Extend the message schedule by the given number of words. -/
def extendW (w : List Nat) : Nat → List Nat
  | 0 => w
  | n + 1 =>
    let t := w.length
    extendW
      (w ++ [(smallSig1 (w.getD (t - 2) 0) + w.getD (t - 7) 0 + smallSig0 (w.getD (t - 15) 0) +
        w.getD (t - 16) 0) % MOD32])
      n

/-- One compression round; the state is `[a, b, c, d, e, f, g, h]`. -/
def sha256Round (st : List Nat) (kw : Nat × Nat) : List Nat :=
  let a := st.getD 0 0
  let b := st.getD 1 0
  let c := st.getD 2 0
  let d := st.getD 3 0
  let e := st.getD 4 0
  let f := st.getD 5 0
  let g := st.getD 6 0
  let h := st.getD 7 0
  let t1 := (h + sumSig1 e + chF e f g + kw.1 + kw.2) % MOD32
  let t2 := (sumSig0 a + majF a b c) % MOD32
  [(t1 + t2) % MOD32, a, b, c, (d + t1) % MOD32, e, f, g]

/-- Compress one block into the running hash. -/
def sha256Block (h : List Nat) (block : List Nat) : List Nat :=
  let w := extendW (blockWords block) 48
  let st := (sha256K.zip w).foldl sha256Round h
  (List.range 8).map fun i => (h.getD i 0 + st.getD i 0) % MOD32

/-- SHA-256 of a byte message, as eight 32-bit words. -/
def sha256Words (msg : List Nat) : List Nat :=
  (toBlocks (sha256pad msg)).foldl sha256Block sha256H0

/-- Lower-case hex digit. -/
def hexDigit (n : Nat) : Char :=
  if n < 10 then Char.ofNat (48 + n) else Char.ofNat (87 + n)

/-- Eight hex digits of a 32-bit word. -/
def word32Hex (x : Nat) : String :=
  String.mk ((List.range 8).map fun i => hexDigit ((x >>> ((7 - i) * 4)) % 16))

/-- `createHash('sha256').update(s).digest('hex')`. -/
def sha256Hex (msg : List Nat) : String :=
  String.join ((sha256Words msg).map word32Hex)

/-- Bytes of a string: code points, equal to the UTF-8 bytes for the ASCII
strings produced by the JSON encodings at issue. -/
def strBytes (s : String) : List Nat :=
  s.toList.map fun c => c.toNat

/- JSON values and their list spines form one mutual inductive so that
serialization is structurally recursive (and therefore kernel-computable). -/
mutual

/-- JSON values; objects keep their key insertion order, exactly as
JavaScript objects passed to `JSON.stringify` do. -/
inductive Json where
  | null : Json
  | bool : Bool → Json
  | num : Int → Json
  | str : String → Json
  | arr : JsonList → Json
  | obj : JsonProps → Json

/-- Array items. -/
inductive JsonList where
  | nil : JsonList
  | cons : Json → JsonList → JsonList

/-- Insertion-ordered object properties. -/
inductive JsonProps where
  | nil : JsonProps
  | cons : String → Json → JsonProps → JsonProps

end

/-- String escaping of `JSON.stringify`. -/
def jsonEscapeChar (c : Char) : String :=
  if c = '"' then "\\\""
  else if c = '\\' then "\\\\"
  else if c = '\n' then "\\n"
  else if c = '\r' then "\\r"
  else if c = '\t' then "\\t"
  else if c = Char.ofNat 8 then "\\b"
  else if c = Char.ofNat 12 then "\\f"
  else if c.toNat < 32 then
    "\\u00" ++ String.mk [hexDigit (c.toNat / 16), hexDigit (c.toNat % 16)]
  else String.singleton c

def jsonEscape (s : String) : String :=
  s.toList.foldl (fun acc c => acc ++ jsonEscapeChar c) ""

mutual

/-- `JSON.stringify`: no whitespace, object keys in insertion order. -/
def Json.stringify : Json → String
  | .null => "null"
  | .bool true => "true"
  | .bool false => "false"
  | .num n => toString n
  | .str s => "\"" ++ jsonEscape s ++ "\""
  | .arr xs => "[" ++ stringifyItems xs ++ "]"
  | .obj kvs => "\x7b" ++ stringifyProps kvs ++ "\x7d"

/-- Comma-joined array items. -/
def stringifyItems : JsonList → String
  | .nil => ""
  | .cons x .nil => Json.stringify x
  | .cons x (.cons y rest) => Json.stringify x ++ "," ++ stringifyItems (.cons y rest)

/-- Comma-joined `"key":value` properties. -/
def stringifyProps : JsonProps → String
  | .nil => ""
  | .cons k v .nil => "\"" ++ jsonEscape k ++ "\":" ++ Json.stringify v
  | .cons k v (.cons k2 v2 rest) =>
    "\"" ++ jsonEscape k ++ "\":" ++ Json.stringify v ++ "," ++
      stringifyProps (.cons k2 v2 rest)

end

/-- The `metadata` argument of `computeChunkHash`: semantic type, intent, and
the schema-agnostic context map (a JSON value). -/
structure ChunkHashMeta where
  type : String
  intent : String
  context : Json

/-- `computeChunkHash`: SHA-256 hex digest of
`JSON.stringify({xml, type, intent, context})`. -/
def computeChunkHash (xmlContent : String) (m : ChunkHashMeta) : String :=
  let hashInput := Json.stringify (Json.obj
    (.cons "xml" (Json.str xmlContent) (.cons "type" (Json.str m.type)
      (.cons "intent" (Json.str m.intent) (.cons "context" m.context .nil)))))
  sha256Hex (strBytes hashInput)

/-! ## Chunker line ranges (`XMLChunker.findElementRange`)

`findElementRange` locates an element in the original text by a depth-counting
line scan from the search cursor: the first line matching `<tag[\s>/]` opens
the range (and closes it immediately when the line contains `/>`, the
self-closing case); otherwise lines matching `<tag[\s>]` without `/>`
increase the depth and `</tag>` decreases it until it returns to zero.  The
resulting `[start, end]` (1-based, inclusive) is then expanded outward over
bare structural wrapper tags by `expandRangeForStructuralWrappers`: up to 4
lines back for lines that are exactly `<name>` (regex `^<(\w+:?\w*)>\s*$` on
the trimmed line, skipping blank and comment lines), and, if any wrapper was
engulfed, up to 10 lines forward for the matching `</name>` lines.  The
mutable search cursor is passed explicitly as `pos`; regex tests are modelled
character-exactly over the line's characters. -/

/-- Does the character list start with the given pattern? -/
def charsLead : List Char → List Char → Bool
  | [], _ => true
  | _ :: _, [] => false
  | p :: ps, c :: cs => p = c && charsLead ps cs

/-- `s.startsWith pat`, executably over the character lists. -/
def strLead (s pat : String) : Bool :=
  charsLead pat.toList s.toList

/-- `s.endsWith suf`, executably over the reversed character lists. -/
def strTail (s suf : String) : Bool :=
  charsLead suf.toList.reverse s.toList.reverse

/-- Does the pattern occur anywhere in the character list? -/
def charsContain (pat : List Char) : List Char → Bool
  | [] => charsLead pat []
  | c :: cs => charsLead pat (c :: cs) || charsContain pat cs

/-- Is some suffix of the character list accepted by the test? -/
def anyPos (p : List Char → Bool) : List Char → Bool
  | [] => p []
  | c :: cs => p (c :: cs) || anyPos p cs

/-- JS `\w`: ASCII letters, digits and underscore. -/
def wordChar (c : Char) : Bool := c.isAlphanum || c = '_'

/-- Does the suffix start with `<tag` followed by whitespace, `>` — or `/`
when `allowSlash` is set (the `[\s>/]` vs `[\s>]` character classes)? -/
def openTagAt (tag : List Char) (allowSlash : Bool) (s : List Char) : Bool :=
  charsLead ('<' :: tag) s &&
    match s.drop (tag.length + 1) with
    | [] => false
    | c :: _ => c.isWhitespace || c = '>' || (allowSlash && c = '/')

/-- Test of the opening pattern `<tag[\s>/]` (resp. `<tag[\s>]`) on a line. -/
def openTagTest (tag : String) (allowSlash : Bool) (line : String) : Bool :=
  anyPos (openTagAt tag.toList allowSlash) line.toList

/-- Test of the closing pattern `</tag>` on a line. -/
def closeTagTest (tag : String) (line : String) : Bool :=
  charsContain ('<' :: '/' :: (tag.toList ++ ['>'])) line.toList

/-- `line.includes('/>')`. -/
def includesSelfClose (line : String) : Bool :=
  charsContain ['/', '>'] line.toList

/-- Phase 1 of the scan: the first line (0-based index `i`, counting from the
cursor) matching the opening pattern, together with whether it self-closes. -/
def findOpenFrom (tag : String) : Nat → List String → Option (Nat × Bool)
  | _, [] => none
  | i, l :: ls =>
    if openTagTest tag true l then some (i, includesSelfClose l)
    else findOpenFrom tag (i + 1) ls

/-- Phase 2 of the scan: depth counting until the closing tag returns the
depth to zero (a line can both open and close). -/
def findCloseFrom (tag : String) : Nat → Nat → List String → Option Nat
  | _, _, [] => none
  | depth, i, l :: ls =>
    let depth1 := if openTagTest tag false l && ! includesSelfClose l then depth + 1 else depth
    if closeTagTest tag l then
      if depth1 - 1 = 0 then some i
      else findCloseFrom tag (depth1 - 1) (i + 1) ls
    else findCloseFrom tag depth1 (i + 1) ls

/-- The depth-counting scan of `findElementRange`, before wrapper expansion
(1-based line numbers; the not-found fallbacks are `startLine = 1` and
`endLine = startLine`). -/
def findElementRangeCore (tag : String) (lines : List String) (pos : Nat) : Nat × Nat :=
  match findOpenFrom tag pos (lines.drop pos) with
  | none => (1, 1)
  | some (i, true) => (i + 1, i + 1)
  | some (i, false) =>
    match findCloseFrom tag 1 (i + 1) (lines.drop (i + 1)) with
    | some j => (i + 1, j + 1)
    | none => (i + 1, i + 1)

/-- `trim()` of a line, over its characters. -/
def trimChars (cs : List Char) : List Char :=
  ((cs.dropWhile Char.isWhitespace).reverse.dropWhile Char.isWhitespace).reverse

/-- The tail of the wrapper regexes: `\w+:?\w*` then `>` then `\s*$`. -/
def tagNamePattern (cs : List Char) : Bool :=
  let w1 := cs.takeWhile wordChar
  let r1 := cs.dropWhile wordChar
  if w1.isEmpty then false
  else
    match r1 with
    | ':' :: r2 =>
      (match r2.dropWhile wordChar with
       | '>' :: r4 => r4.all Char.isWhitespace
       | _ => false)
    | '>' :: r4 => r4.all Char.isWhitespace
    | _ => false

/-- `^<(\w+:?\w*)>\s*$` on a trimmed line: a bare structural opening tag. -/
def isSimpleOpenChars : List Char → Bool
  | '<' :: rest => tagNamePattern rest
  | _ => false

/-- `^<\/(\w+:?\w*)>\s*$` on a trimmed line: a bare structural closing tag. -/
def isSimpleCloseChars : List Char → Bool
  | '<' :: '/' :: rest => tagNamePattern rest
  | _ => false

/-- Backward wrapper search (`for i = startLine-2; i >= 0 && i >= startLine-5;
i--`): move `newStart` up over bare opening tags, skip blank/comment lines,
stop at anything else.  The fuel bounds the `i >= startLine-5` condition, the
`i = 0` check the `i >= 0` condition. -/
def expandBackAux (lines : List String) : Nat → Nat → Nat → Nat
  | 0, _, ns => ns
  | fuel + 1, i, ns =>
    let t := trimChars (lines.getD i "").toList
    if isSimpleOpenChars t then
      if i = 0 then i + 1 else expandBackAux lines fuel (i - 1) (i + 1)
    else if !t.isEmpty && !charsLead "<!--".toList t then ns
    else if i = 0 then ns else expandBackAux lines fuel (i - 1) ns

/-- Forward wrapper search (`for i = endLine; i < lines.length && i <
endLine+10; i++`): advance `newEnd` over bare closing tags until as many
wrappers closed as were engulfed backwards. -/
def expandFwdAux (lines : List String) : Nat → Nat → Nat → Nat → Nat → Nat
  | 0, _, _, _, ne => ne
  | fuel + 1, i, need, closed, ne =>
    if lines.length ≤ i then ne
    else
      let t := trimChars (lines.getD i "").toList
      if isSimpleCloseChars t then
        if need ≤ closed + 1 then i + 1
        else expandFwdAux lines fuel (i + 1) need (closed + 1) (i + 1)
      else if !t.isEmpty && !charsLead "<!--".toList t then ne
      else expandFwdAux lines fuel (i + 1) need closed ne

/-- `expandRangeForStructuralWrappers`. -/
def expandRangeForStructuralWrappers (startLine endLine : Nat) (lines : List String) :
    Nat × Nat :=
  let newStart :=
    if 1 < startLine then expandBackAux lines 4 (startLine - 2) startLine else startLine
  let newEnd :=
    if newStart < startLine ∧ endLine < lines.length then
      expandFwdAux lines 10 endLine (startLine - newStart) 0 endLine
    else endLine
  (newStart, newEnd)

/-- `findElementRange`: the depth-counting scan followed by structural
wrapper expansion; its result is stored verbatim as the emitted chunk's
`(start_line, end_line)`. -/
def findElementRange (tag : String) (lines : List String) (pos : Nat) : Nat × Nat :=
  let r := findElementRangeCore tag lines pos
  expandRangeForStructuralWrappers r.1 r.2 lines

/-! ## Scanner (`Watcher.scanForChanges`)

The watcher keeps an in-memory map `fileHashes : path → sha256(content)`.
`scanForChanges(directories)` walks the given directories collecting `.xml`
files, emits a `FileChange{path, hash, exists: true}` for every new or
modified file, then flags as deleted (`exists: false`) the mapped files that
were not seen — but only those under one of the scanned directories — and
finally merges: deleted paths are removed from the map and scanned files
upserted, leaving entries of unscanned directories intact.

The file system is abstracted as a list of `(absolute path, content hash)`
pairs; a file is inside directory `d` exactly when its path extends
`d` + separator (which is how the recursive `findXMLFiles` walk builds
paths via `path.join`).  The separator is modelled as `"/"`. -/

/-- Append the path separator unless the directory already ends with one
(`d.endsWith(path.sep) ? d : d + path.sep`). -/
def normDir (d : String) : String :=
  if strTail d "/" then d else d ++ "/"

/-- A `FileChange` event (`fileExists` models the `exists` field). -/
structure FileChange where
  filePath : String
  hash : String
  fileExists : Bool
  deriving Repr, DecidableEq

/-- `findXMLFiles(dir)`: the files of the (abstract) file system that live
under `dir` and end in `.xml`. -/
def findXMLFilesM (fsys : List (String × String)) (dir : String) : List (String × String) :=
  fsys.filter fun pc => strLead pc.1 (normDir dir) && strTail pc.1 ".xml"

/-- Association-list lookup (`Map.get`): value of the first (and, with
unique keys, only) entry holding the key. -/
def lookupA : List (String × String) → String → Option String
  | [], _ => none
  | kv :: m, k => if kv.1 = k then some kv.2 else lookupA m k

/-- Association-list upsert (`Map.set`): replace the entry holding the key in
place, or append a fresh entry at the end. -/
def setA : List (String × String) → String → String → List (String × String)
  | [], k, v => [(k, v)]
  | kv :: m, k, v => if kv.1 = k then (k, v) :: m else kv :: setA m k v

/-- Per-file body of the scan loop: record the file in `currentFiles` and
push a change when the stored hash is missing or different. -/
def scanStep (fileHashes : List (String × String))
    (st : List (String × String) × List FileChange) (pc : String × String) :
    List (String × String) × List FileChange :=
  let cur := setA st.1 pc.1 pc.2
  let changed : Bool :=
    match lookupA fileHashes pc.1 with
    | some oldHash => ¬ oldHash = pc.2
    | none => true
  if changed then (cur, st.2 ++ [⟨pc.1, pc.2, true⟩]) else (cur, st.2)

/-- Result of `scanForChanges`: the emitted changes and the updated
in-memory hash map. -/
structure ScanOut where
  changes : List FileChange
  hashes : List (String × String)
  deriving Repr, DecidableEq

/-- First phase of `scanForChanges`: walk every directory, building
`currentFiles` and the list of new/modified changes. -/
def scanCollect (fileHashes : List (String × String)) (dirs : List String)
    (fsys : List (String × String)) : List (String × String) × List FileChange :=
  dirs.foldl (fun st d => (findXMLFilesM fsys d).foldl (scanStep fileHashes) st) ([], [])

/-- Second phase: flag mapped files that were not seen as deleted, but only
within the scanned directories. -/
def scanDeletions (fileHashes : List (String × String)) (dirs : List String)
    (currentFiles : List (String × String)) : List FileChange :=
  fileHashes.foldl
    (fun acc ph =>
      if (lookupA currentFiles ph.1).isNone then
        if (dirs.map normDir).any (fun d => strLead ph.1 d) then
          acc ++ [⟨ph.1, ph.2, false⟩]
        else acc
      else acc)
    []

/-- `Watcher.scanForChanges(directories)` over the abstract file system:
collect changes, flag in-scope deletions, then merge the map (drop deleted
paths, upsert scanned files without discarding other directories). -/
def scanForChanges (fileHashes : List (String × String)) (dirs : List String)
    (fsys : List (String × String)) : ScanOut :=
  let scanned := scanCollect fileHashes dirs fsys
  let deletions := scanDeletions fileHashes dirs scanned.1
  let changes := scanned.2 ++ deletions
  let afterDel := fileHashes.filter fun ph =>
    ¬ changes.any fun c => !c.fileExists && c.filePath = ph.1
  ⟨changes, scanned.1.foldl (fun m pc => setA m pc.1 pc.2) afterDel⟩

/-- A path is outside the scanned directories when it extends none of their
normalized forms. -/
def outsideDirs (dirs : List String) (p : String) : Prop :=
  ∀ d ∈ dirs, strLead p (normDir d) = false

/-! ### Auxiliary lemmas about the scanner -/

theorem setA_keys (m : List (String × String)) (k v : String) (Q : String → Prop)
    (hm : ∀ kv ∈ m, Q kv.1) (hk : Q k) : ∀ kv ∈ setA m k v, Q kv.1 := by
  induction m with
  | nil =>
    intro kv hkv
    simp only [setA, List.mem_singleton] at hkv
    rw [hkv]
    exact hk
  | cons kv0 m ih =>
    intro kv hkv
    by_cases h0 : kv0.1 = k
    · rw [setA, if_pos h0] at hkv
      rcases List.mem_cons.1 hkv with h | h
      · rw [h]; exact hk
      · exact hm kv (List.mem_cons_of_mem _ h)
    · rw [setA, if_neg h0] at hkv
      rcases List.mem_cons.1 hkv with h | h
      · rw [h]; exact hm kv0 (List.mem_cons_self _ _)
      · exact ih (fun kv' h' => hm kv' (List.mem_cons_of_mem _ h')) kv h

theorem lookupA_setA_ne (m : List (String × String)) (k v p : String) (h : ¬ k = p) :
    lookupA (setA m k v) p = lookupA m p := by
  induction m with
  | nil => simp [setA, lookupA, h]
  | cons kv m ih =>
    by_cases h0 : kv.1 = k
    · rw [setA, if_pos h0, lookupA, lookupA, if_neg h, if_neg fun hp => h (h0.symm.trans hp)]
    · rw [setA, if_neg h0, lookupA, lookupA]
      by_cases h1 : kv.1 = p
      · rw [if_pos h1, if_pos h1]
      · rw [if_neg h1, if_neg h1, ih]

theorem lookupA_foldl_setA (files : List (String × String)) (m : List (String × String))
    (p : String) (hf : ∀ pc ∈ files, ¬ pc.1 = p) :
    lookupA (files.foldl (fun m pc => setA m pc.1 pc.2) m) p = lookupA m p := by
  induction files generalizing m with
  | nil => rfl
  | cons pc files ih =>
    rw [List.foldl_cons, ih _ fun pc' h' => hf pc' (List.mem_cons_of_mem _ h'),
      lookupA_setA_ne _ _ _ _ (hf pc (List.mem_cons_self _ _))]

theorem lookupA_filter (m : List (String × String)) (q : String × String → Bool) (p : String)
    (h : ∀ kv ∈ m, kv.1 = p → q kv = true) :
    lookupA (m.filter q) p = lookupA m p := by
  induction m with
  | nil => rfl
  | cons kv m ih =>
    rw [List.filter_cons]
    by_cases h1 : kv.1 = p
    · rw [if_pos (h kv (List.mem_cons_self _ _) h1), lookupA, lookupA, if_pos h1, if_pos h1]
    · by_cases h2 : q kv = true
      · rw [if_pos h2, lookupA, lookupA, if_neg h1, if_neg h1]
        exact ih fun kv' h' => h kv' (List.mem_cons_of_mem _ h')
      · rw [if_neg h2, lookupA, if_neg h1]
        exact ih fun kv' h' => h kv' (List.mem_cons_of_mem _ h')

/-- The per-file scan loop only grows `currentFiles` with keys of the scanned
files and only emits `exists: true` changes. -/
theorem scanStep_foldl_inv (fileHashes : List (String × String)) (Q : String → Prop) :
    ∀ (files : List (String × String)) (st : List (String × String) × List FileChange),
      (∀ pc ∈ files, Q pc.1) → (∀ kv ∈ st.1, Q kv.1) → (∀ c ∈ st.2, c.fileExists = true) →
      (∀ kv ∈ (files.foldl (scanStep fileHashes) st).1, Q kv.1) ∧
        (∀ c ∈ (files.foldl (scanStep fileHashes) st).2, c.fileExists = true) := by
  intro files
  induction files with
  | nil => exact fun st _ h1 h2 => ⟨h1, h2⟩
  | cons pc files ih =>
    intro st hf h1 h2
    rw [List.foldl_cons]
    have hQ : Q pc.1 := hf pc (List.mem_cons_self _ _)
    refine ih _ (fun pc' h' => hf pc' (List.mem_cons_of_mem _ h')) ?_ ?_
    · intro kv hkv
      simp only [scanStep] at hkv
      split at hkv <;> exact setA_keys st.1 pc.1 pc.2 Q h1 hQ kv hkv
    · intro c hc
      simp only [scanStep] at hc
      split at hc
      · rcases List.mem_append.1 hc with h | h
        · exact h2 c h
        · simp only [List.mem_singleton] at h
          rw [h]
      · exact h2 c hc

/-- The directory scan loop preserves the same two facts, for directories
drawn from `dirs`. -/
theorem scanDirs_inv (fileHashes : List (String × String)) (dirs : List String)
    (fsys : List (String × String)) :
    ∀ (ds : List String) (st : List (String × String) × List FileChange),
      (∀ d ∈ ds, d ∈ dirs) →
      (∀ kv ∈ st.1, ∃ d ∈ dirs, strLead kv.1 (normDir d) = true) →
      (∀ c ∈ st.2, c.fileExists = true) →
      (∀ kv ∈ (ds.foldl
          (fun st d => (findXMLFilesM fsys d).foldl (scanStep fileHashes) st) st).1,
        ∃ d ∈ dirs, strLead kv.1 (normDir d) = true) ∧
        (∀ c ∈ (ds.foldl
          (fun st d => (findXMLFilesM fsys d).foldl (scanStep fileHashes) st) st).2,
          c.fileExists = true) := by
  intro ds
  induction ds with
  | nil => exact fun st _ h1 h2 => ⟨h1, h2⟩
  | cons d ds ih =>
    intro st hds h1 h2
    rw [List.foldl_cons]
    have hinner := scanStep_foldl_inv fileHashes
      (fun key => ∃ d ∈ dirs, strLead key (normDir d) = true)
      (findXMLFilesM fsys d) st
      (fun pc hpc => by
        have hcond := (List.mem_filter.1 hpc).2
        simp only [Bool.and_eq_true] at hcond
        exact ⟨d, hds d (List.mem_cons_self _ _), hcond.1⟩)
      h1 h2
    exact ih _ (fun d' h' => hds d' (List.mem_cons_of_mem _ h')) hinner.1 hinner.2

/-- Every deletion flagged by the deletion loop lies under a scanned
directory. -/
theorem deletions_inv (nds : List String) (currentFiles : List (String × String)) :
    ∀ (fh : List (String × String)) (acc : List FileChange),
      (∀ c ∈ acc, c.fileExists = false → nds.any (fun d => strLead c.filePath d) = true) →
      ∀ c ∈ fh.foldl
          (fun acc ph =>
            if (lookupA currentFiles ph.1).isNone then
              if nds.any (fun d => strLead ph.1 d) then acc ++ [⟨ph.1, ph.2, false⟩] else acc
            else acc)
          acc,
        c.fileExists = false → nds.any (fun d => strLead c.filePath d) = true := by
  intro fh
  induction fh with
  | nil => exact fun acc hacc => hacc
  | cons ph fh ih =>
    intro acc hacc
    rw [List.foldl_cons]
    apply ih
    intro c hc
    split at hc
    · split at hc
      · next hin =>
        rcases List.mem_append.1 hc with h | h
        · exact hacc c h
        · simp only [List.mem_singleton] at h
          intro _
          rw [h]
          exact hin
      · exact hacc c hc
    · exact hacc c hc

/-! ## Hybrid search engine (semantic-search tool)

`bm25Search` normalizes the FTS5 ranks of the returned rows, `mmrRerank`
diversifies the top candidates, `deduplicateOverlapping` drops chunks of the
same file whose line ranges overlap by more than half of the smaller span.
Scores are modelled as `ℚ`; the FTS row list stands for the rows returned by
`ORDER BY rank LIMIT ?` (so it is ascending by rank).  Cosine similarity
(used only inside the greedy part of MMR, which no claim depends on) is
abstracted as a similarity function on the stored embedding bytes. -/

/-- Overlap threshold for deduplication (`OVERLAP_THRESHOLD = 0.5`). -/
def OVERLAP_THRESHOLD : ℚ := 1 / 2

/-- A chunk with its scores (`ScoredChunk`). -/
structure ScoredChunk where
  chunk : ChunkRow
  semanticScore : ℚ
  bm25Score : ℚ
  hybridScore : ℚ
  deriving Repr, DecidableEq, Inhabited

/-- Rank normalization of `bm25Search`: the rows come back ordered by rank
ascending, so `rows[0]` is the best (most negative) and the last row the
worst; normalize linearly with best ↦ 1 (`range || 1` guards a zero
denominator). -/
def bm25Normalize (rows : List (Nat × ℚ)) : List (Nat × ℚ) :=
  match rows with
  | [] => []
  | r0 :: _ =>
    let bestRank := r0.2
    let worstRank := (rows.getLast?.getD r0).2
    let range0 := worstRank - bestRank
    let range := if range0 = 0 then 1 else range0
    rows.map fun r => (r.1, 1 - (r.2 - bestRank) / range)

/-- Does `candidate` overlap an already-kept chunk by more than the threshold
(same file, `overlap_lines / min(span_candidate, span_kept) > 0.5`)? -/
def overlapsMoreThanHalf (candidate kept : ScoredChunk) : Bool :=
  if ¬ candidate.chunk.filePath = kept.chunk.filePath then false
  else
    let overlapStart : Int := max (candidate.chunk.startLine : Int) (kept.chunk.startLine : Int)
    let overlapEnd : Int := min (candidate.chunk.endLine : Int) (kept.chunk.endLine : Int)
    let overlapLines : Int := max 0 (overlapEnd - overlapStart + 1)
    let candidateSpan : Int := (candidate.chunk.endLine : Int) - candidate.chunk.startLine + 1
    let keptSpan : Int := (kept.chunk.endLine : Int) - kept.chunk.startLine + 1
    let minSpan : Int := min candidateSpan keptSpan
    0 < minSpan ∧ (overlapLines : ℚ) / (minSpan : ℚ) > OVERLAP_THRESHOLD

/-- `deduplicateOverlapping`: scan the results in order, dropping a candidate
that overlaps an already-kept chunk. -/
def deduplicateOverlapping (results : List ScoredChunk) : List ScoredChunk :=
  results.foldl
    (fun kept c => if kept.any (fun e => overlapsMoreThanHalf c e) then kept else kept ++ [c])
    []

/-- Max cosine similarity of a candidate to the already-selected chunks
(`maxSim` in `mmrRerank`), over an abstract similarity `sim`. -/
def maxSimToSelected (sim : List Nat → List Nat → ℚ) (selected : List ScoredChunk)
    (candidate : ScoredChunk) : ℚ :=
  selected.foldl
    (fun maxSim sel =>
      let s := sim sel.chunk.embedding candidate.chunk.embedding
      if s > maxSim then s else maxSim)
    0

/-- The MMR objective `λ · relevance − (1−λ) · maxSim`. -/
def mmrScore (lam : ℚ) (sim : List Nat → List Nat → ℚ) (selected : List ScoredChunk)
    (candidate : ScoredChunk) : ℚ :=
  lam * candidate.hybridScore - (1 - lam) * maxSimToSelected sim selected candidate

/-- One greedy MMR selection step: the remaining index with the strictly best
MMR score (ties keep the earlier index; `none` iff no index remains). -/
def pickBest (lam : ℚ) (sim : List Nat → List Nat → ℚ) (cands : List ScoredChunk)
    (selected : List ScoredChunk) (remaining : List Nat) : Option Nat :=
  (remaining.foldl
    (fun best idx =>
      let score := mmrScore lam sim selected (cands.getD idx default)
      match best with
      | none => some (idx, score)
      | some (bi, bs) => if score > bs then some (idx, score) else some (bi, bs))
    none).map fun b => b.1

/-- The greedy selection loop of `mmrRerank` (`step < k && remaining.size > 0`). -/
def mmrLoop (lam : ℚ) (sim : List Nat → List Nat → ℚ) (cands : List ScoredChunk) :
    Nat → List Nat → List ScoredChunk → List ScoredChunk
  | 0, _, selected => selected
  | steps + 1, remaining, selected =>
    match pickBest lam sim cands selected remaining with
    | none => selected
    | some i => mmrLoop lam sim cands steps (remaining.erase i) (selected ++ [cands.getD i default])

/-- `mmrRerank`: return the candidates unchanged when they already fit in `k`,
otherwise run greedy MMR selection. -/
def mmrRerank (sim : List Nat → List Nat → ℚ) (candidates : List ScoredChunk) (k : Nat)
    (lam : ℚ) : List ScoredChunk :=
  if candidates.length ≤ k then candidates
  else mmrLoop lam sim candidates k (List.range candidates.length) []

/-! ### Auxiliary lemmas about `deduplicateOverlapping` -/

/-- The dedup fold keeps the no-overlapping-pair invariant of the kept list. -/
theorem dedup_foldl_pairwise (rs : List ScoredChunk) (kept : List ScoredChunk)
    (hk : kept.Pairwise fun a b => overlapsMoreThanHalf b a = false) :
    (rs.foldl
      (fun kept c => if kept.any (fun e => overlapsMoreThanHalf c e) then kept else kept ++ [c])
      kept).Pairwise (fun a b => overlapsMoreThanHalf b a = false) := by
  induction rs generalizing kept with
  | nil => exact hk
  | cons c cs ih =>
    rw [List.foldl_cons]
    by_cases hc : kept.any (fun e => overlapsMoreThanHalf c e) = true
    · rw [if_pos hc]
      exact ih kept hk
    · rw [if_neg hc]
      refine ih _ (List.pairwise_append.2 ⟨hk, List.pairwise_singleton _ _, ?_⟩)
      intro a ha b hb
      simp only [List.mem_singleton] at hb
      subst hb
      exact Bool.eq_false_iff.2 fun hca => hc (List.any_eq_true.2 ⟨a, ha, hca⟩)

/-- Members of the kept list survive the dedup fold. -/
theorem dedup_foldl_mem (rs kept : List ScoredChunk) (x : ScoredChunk) (hx : x ∈ kept) :
    x ∈ rs.foldl
      (fun kept c => if kept.any (fun e => overlapsMoreThanHalf c e) then kept else kept ++ [c])
      kept := by
  induction rs generalizing kept with
  | nil => exact hx
  | cons c cs ih =>
    rw [List.foldl_cons]
    by_cases hc : kept.any (fun e => overlapsMoreThanHalf c e) = true
    · rw [if_pos hc]
      exact ih kept hx
    · rw [if_neg hc]
      exact ih _ (List.mem_append_left _ hx)

/-- The claim's literal example: the higher-scored chunk spanning lines
10–40 of a file. -/
def exHigher : ScoredChunk := ⟨⟨1, "f.xml", "h", 0, 10, 40, "c1", [1]⟩, 9/10, 0, 9/10⟩

/-- The claim's literal example: the lower-scored chunk spanning lines
20–35 of the same file (contained in the higher-scored one's span). -/
def exLower : ScoredChunk := ⟨⟨2, "f.xml", "h", 1, 20, 35, "c2", [2]⟩, 1/2, 0, 1/2⟩

/-- Overlap-chain example: top-scored chunk of a file, spanning lines 1–10. -/
def exChainA : ScoredChunk := ⟨⟨3, "g.xml", "h", 0, 1, 10, "cA", [3]⟩, 9/10, 0, 9/10⟩

/-- Overlap-chain example: second chunk of the same file, spanning lines
5–14 (overlaps `exChainA` on 6 of its 10 lines). -/
def exChainB : ScoredChunk := ⟨⟨4, "g.xml", "h", 1, 5, 14, "cB", [4]⟩, 8/10, 0, 8/10⟩

/-- Overlap-chain example: third chunk of the same file, spanning lines
9–18 (overlaps `exChainB` on 6 of its 10 lines but `exChainA` on only 2). -/
def exChainC : ScoredChunk := ⟨⟨5, "g.xml", "h", 2, 9, 18, "cC", [5]⟩, 7/10, 0, 7/10⟩

/-! ### Auxiliary lemmas about `processFile` -/

/-- A successful slot lookup returns one of the stored rows. -/
theorem lookupSlot_mem (existing : List ChunkRow) (ci s e : Nat) (ex : ChunkRow)
    (h : lookupSlot existing ci s e = some ex) : ex ∈ existing := by
  have aux : ∀ (l : List ChunkRow) (acc : Option ChunkRow),
      l.foldl
        (fun acc r =>
          if r.chunkIndex = ci ∧ r.startLine = s ∧ r.endLine = e then some r else acc)
        acc = some ex →
      acc = some ex ∨ ex ∈ l := by
    intro l
    induction l with
    | nil => exact fun acc h => Or.inl h
    | cons r rs ih =>
      intro acc h
      rcases ih _ h with h1 | h1
      · have h1' :
            (if r.chunkIndex = ci ∧ r.startLine = s ∧ r.endLine = e then some r else acc)
              = some ex := h1
        by_cases hc : r.chunkIndex = ci ∧ r.startLine = s ∧ r.endLine = e
        · rw [if_pos hc] at h1'
          exact Or.inr (by simp only [Option.some.injEq] at h1'; simp [h1'])
        · rw [if_neg hc] at h1'
          exact Or.inl h1'
      · exact Or.inr (List.mem_cons_of_mem _ h1)
  rcases aux existing none h with h1 | h1
  · exact absurd h1 (by simp)
  · exact h1

/-- Rows surviving a fold of `deleteChunk` were present before. -/
theorem mem_chunks_foldl_deleteChunk (rs : List ChunkRow) (db : DB) (r : ChunkRow)
    (h : r ∈ (rs.foldl (fun d ex => deleteChunk d ex.id) db).chunks) : r ∈ db.chunks := by
  induction rs generalizing db with
  | nil => exact h
  | cons x xs ih =>
    have := ih (deleteChunk db x.id) h
    rw [deleteChunk_eq] at this
    exact List.mem_of_mem_filter this

/-- A successful slot lookup returns a row carrying the queried key. -/
theorem lookupSlot_key (existing : List ChunkRow) (ci s e : Nat) (ex : ChunkRow)
    (h : lookupSlot existing ci s e = some ex) :
    ex.chunkIndex = ci ∧ ex.startLine = s ∧ ex.endLine = e := by
  have aux : ∀ (l : List ChunkRow) (acc : Option ChunkRow),
      (acc = none ∨ ∃ a, acc = some a ∧ a.chunkIndex = ci ∧ a.startLine = s ∧ a.endLine = e) →
      l.foldl
        (fun acc r =>
          if r.chunkIndex = ci ∧ r.startLine = s ∧ r.endLine = e then some r else acc)
        acc = some ex →
      ex.chunkIndex = ci ∧ ex.startLine = s ∧ ex.endLine = e := by
    intro l
    induction l with
    | nil =>
      intro acc hacc h
      rcases hacc with h0 | ⟨a, ha, hk⟩
      · rw [h0] at h
        cases h
      · rw [ha] at h
        cases h
        exact hk
    | cons r rs ih =>
      intro acc hacc h
      refine ih _ ?_ h
      by_cases hc : r.chunkIndex = ci ∧ r.startLine = s ∧ r.endLine = e
      · refine Or.inr ⟨r, ?_, hc⟩
        show (if r.chunkIndex = ci ∧ r.startLine = s ∧ r.endLine = e then some r else acc)
          = some r
        rw [if_pos hc]
      · rcases hacc with h0 | ⟨a, ha, hk⟩
        · refine Or.inl ?_
          show (if r.chunkIndex = ci ∧ r.startLine = s ∧ r.endLine = e then some r else acc)
            = none
          rw [if_neg hc]
          exact h0
        · refine Or.inr ⟨a, ?_, hk⟩
          show (if r.chunkIndex = ci ∧ r.startLine = s ∧ r.endLine = e then some r else acc)
            = some a
          rw [if_neg hc]
          exact ha
  exact aux existing none (Or.inl rfl) h

/-- `applyMeta` never changes the row id. -/
theorem applyMeta_id (r : ChunkRow) (m : ChunkMeta) (emb : List Nat) :
    (applyMeta r m emb).id = r.id := rfl

/-- `updateChunk` preserves the presence of any row id. -/
theorem updateChunk_id_present (db : DB) (cid : Nat) (m : ChunkMeta) (emb : List Nat)
    (text? : Option String) (i : Nat) (h : ∃ r ∈ db.chunks, r.id = i) :
    ∃ r ∈ (updateChunk db cid m emb text?).chunks, r.id = i := by
  obtain ⟨r, hr, hid⟩ := h
  refine ⟨if r.id = cid then applyMeta r m emb else r, ?_, ?_⟩
  · rw [updateChunk_chunks]
    exact List.mem_map.2 ⟨r, hr, rfl⟩
  · by_cases h0 : r.id = cid
    · rw [if_pos h0, applyMeta_id]
      exact hid
    · rw [if_neg h0]
      exact hid

/-- Reduction of `processChunkStep` in the reuse branch. -/
theorem processChunkStep_reuse (embed : String → List Nat) (fh : String)
    (existing : List ChunkRow) (st : LoopState) (c : NewChunk) (ex : ChunkRow)
    (hls : lookupSlot existing c.chunkIndex c.startLine c.endLine = some ex)
    (hh : ex.contentHash = c.contentHash) :
    processChunkStep embed fh existing st c
      = ⟨updateChunk st.db ex.id
            ⟨c.filePath, fh, c.chunkIndex, c.startLine, c.endLine, c.contentHash⟩
            ex.embedding (some c.embeddingText),
          st.matched ++ [ex.id], st.reused + 1, st.embedded, st.embedCalls⟩ := by
  simp [processChunkStep, hls, hh]

/-- Reduction of `processChunkStep` in the re-embed branch. -/
theorem processChunkStep_rehash (embed : String → List Nat) (fh : String)
    (existing : List ChunkRow) (st : LoopState) (c : NewChunk) (ex : ChunkRow)
    (hls : lookupSlot existing c.chunkIndex c.startLine c.endLine = some ex)
    (hh : ¬ ex.contentHash = c.contentHash) :
    processChunkStep embed fh existing st c
      = ⟨updateChunk st.db ex.id
            ⟨c.filePath, fh, c.chunkIndex, c.startLine, c.endLine, c.contentHash⟩
            (embed c.embeddingText) (some c.embeddingText),
          st.matched ++ [ex.id], st.reused, st.embedded + 1,
          st.embedCalls ++ [c.embeddingText]⟩ := by
  simp [processChunkStep, hls, hh]

/-- Reduction of `processChunkStep` in the insert branch. -/
theorem processChunkStep_insert (embed : String → List Nat) (fh : String)
    (existing : List ChunkRow) (st : LoopState) (c : NewChunk)
    (hls : lookupSlot existing c.chunkIndex c.startLine c.endLine = none) :
    processChunkStep embed fh existing st c
      = ⟨(insertChunk st.db
            ⟨c.filePath, fh, c.chunkIndex, c.startLine, c.endLine, c.contentHash⟩
            (embed c.embeddingText) (some c.embeddingText)).2,
          st.matched, st.reused, st.embedded + 1,
          st.embedCalls ++ [c.embeddingText]⟩ := by
  simp [processChunkStep, hls]

/-- The loop distributes over list append. -/
theorem processChunksLoop_append (embed : String → List Nat) (fh : String)
    (existing : List ChunkRow) (as : List NewChunk) :
    ∀ (bs : List NewChunk) (st : LoopState),
      processChunksLoop embed fh existing (as ++ bs) st
        = processChunksLoop embed fh existing bs
            (processChunksLoop embed fh existing as st) := by
  induction as with
  | nil => intro bs st; rfl
  | cons a as ih => intro bs st; exact ih bs (processChunkStep embed fh existing st a)

/-- The texts sent to the embedder by the loop are exactly the embedding
texts of the chunks that are not reuse hits, in order. -/
theorem processChunksLoop_calls (embed : String → List Nat) (fh : String)
    (existing : List ChunkRow) (cs : List NewChunk) :
    ∀ st : LoopState,
      (processChunksLoop embed fh existing cs st).embedCalls
        = st.embedCalls
            ++ ((cs.filter fun c => ! reuseHit existing c).map fun c => c.embeddingText) := by
  induction cs with
  | nil => intro st; simp [processChunksLoop]
  | cons c cs ih =>
    intro st
    show (processChunksLoop embed fh existing cs
        (processChunkStep embed fh existing st c)).embedCalls = _
    rw [ih]
    rcases hls : lookupSlot existing c.chunkIndex c.startLine c.endLine with _ | ex
    · have hhit : reuseHit existing c = false := by simp [reuseHit, hls]
      rw [processChunkStep_insert embed fh existing st c hls]
      simp [hhit, List.filter_cons]
    · by_cases hh : ex.contentHash = c.contentHash
      · have hhit : reuseHit existing c = true := by simp [reuseHit, hls, hh]
        rw [processChunkStep_reuse embed fh existing st c ex hls hh]
        simp [hhit, List.filter_cons]
      · have hhit : reuseHit existing c = false := by simp [reuseHit, hls, hh]
        rw [processChunkStep_rehash embed fh existing st c ex hls hh]
        simp [hhit, List.filter_cons]

/-- The loop counts exactly the reuse hits as reused. -/
theorem processChunksLoop_reusedCount (embed : String → List Nat) (fh : String)
    (existing : List ChunkRow) (cs : List NewChunk) :
    ∀ st : LoopState,
      (processChunksLoop embed fh existing cs st).reused
        = st.reused + (cs.filter fun c => reuseHit existing c).length := by
  induction cs with
  | nil => intro st; simp [processChunksLoop]
  | cons c cs ih =>
    intro st
    show (processChunksLoop embed fh existing cs
        (processChunkStep embed fh existing st c)).reused = _
    rw [ih]
    rcases hls : lookupSlot existing c.chunkIndex c.startLine c.endLine with _ | ex
    · have hhit : reuseHit existing c = false := by simp [reuseHit, hls]
      rw [processChunkStep_insert embed fh existing st c hls]
      simp [hhit, List.filter_cons]
    · by_cases hh : ex.contentHash = c.contentHash
      · have hhit : reuseHit existing c = true := by simp [reuseHit, hls, hh]
        rw [processChunkStep_reuse embed fh existing st c ex hls hh]
        simp [hhit, List.filter_cons]
        omega
      · have hhit : reuseHit existing c = false := by simp [reuseHit, hls, hh]
        rw [processChunkStep_rehash embed fh existing st c ex hls hh]
        simp [hhit, List.filter_cons]

/-- The loop counts exactly the non-hits as freshly embedded. -/
theorem processChunksLoop_embeddedCount (embed : String → List Nat) (fh : String)
    (existing : List ChunkRow) (cs : List NewChunk) :
    ∀ st : LoopState,
      (processChunksLoop embed fh existing cs st).embedded
        = st.embedded + (cs.filter fun c => ! reuseHit existing c).length := by
  induction cs with
  | nil => intro st; simp [processChunksLoop]
  | cons c cs ih =>
    intro st
    show (processChunksLoop embed fh existing cs
        (processChunkStep embed fh existing st c)).embedded = _
    rw [ih]
    rcases hls : lookupSlot existing c.chunkIndex c.startLine c.endLine with _ | ex
    · have hhit : reuseHit existing c = false := by simp [reuseHit, hls]
      rw [processChunkStep_insert embed fh existing st c hls]
      simp [hhit, List.filter_cons]
      omega
    · by_cases hh : ex.contentHash = c.contentHash
      · have hhit : reuseHit existing c = true := by simp [reuseHit, hls, hh]
        rw [processChunkStep_reuse embed fh existing st c ex hls hh]
        simp [hhit, List.filter_cons]
      · have hhit : reuseHit existing c = false := by simp [reuseHit, hls, hh]
        rw [processChunkStep_rehash embed fh existing st c ex hls hh]
        simp [hhit, List.filter_cons]
        omega

/-- The matched-id list collects the DB id of every successful slot lookup. -/
theorem processChunksLoop_matched (embed : String → List Nat) (fh : String)
    (existing : List ChunkRow) (cs : List NewChunk) :
    ∀ st : LoopState,
      (processChunksLoop embed fh existing cs st).matched
        = st.matched
            ++ (cs.filterMap fun c =>
                (lookupSlot existing c.chunkIndex c.startLine c.endLine).map fun ex => ex.id) := by
  induction cs with
  | nil => intro st; simp [processChunksLoop]
  | cons c cs ih =>
    intro st
    show (processChunksLoop embed fh existing cs
        (processChunkStep embed fh existing st c)).matched = _
    rw [ih]
    rcases hls : lookupSlot existing c.chunkIndex c.startLine c.endLine with _ | ex
    · rw [processChunkStep_insert embed fh existing st c hls]
      simp [List.filterMap_cons, hls]
    · by_cases hh : ex.contentHash = c.contentHash
      · rw [processChunkStep_reuse embed fh existing st c ex hls hh]
        simp [List.filterMap_cons, hls]
      · rw [processChunkStep_rehash embed fh existing st c ex hls hh]
        simp [List.filterMap_cons, hls]

/-- The autoincrement counter never decreases across the loop. -/
theorem processChunksLoop_nextId_mono (embed : String → List Nat) (fh : String)
    (existing : List ChunkRow) (cs : List NewChunk) :
    ∀ st : LoopState,
      st.db.nextId ≤ (processChunksLoop embed fh existing cs st).db.nextId := by
  induction cs with
  | nil => intro st; exact Nat.le_refl _
  | cons c cs ih =>
    intro st
    refine Nat.le_trans ?_ (ih (processChunkStep embed fh existing st c))
    rcases hls : lookupSlot existing c.chunkIndex c.startLine c.endLine with _ | ex
    · rw [processChunkStep_insert embed fh existing st c hls]
      show st.db.nextId ≤ ((insertChunk st.db _ _ _).2).nextId
      rw [insertChunk_nextId]
      exact Nat.le_succ _
    · by_cases hh : ex.contentHash = c.contentHash
      · rw [processChunkStep_reuse embed fh existing st c ex hls hh]
        show st.db.nextId ≤ (updateChunk st.db _ _ _ _).nextId
        rw [updateChunk_nextId]
      · rw [processChunkStep_rehash embed fh existing st c ex hls hh]
        show st.db.nextId ≤ (updateChunk st.db _ _ _ _).nextId
        rw [updateChunk_nextId]

/-- The loop preserves the presence of any row id. -/
theorem processChunksLoop_id_present (embed : String → List Nat) (fh : String)
    (existing : List ChunkRow) (cs : List NewChunk) :
    ∀ (st : LoopState) (i : Nat), (∃ r ∈ st.db.chunks, r.id = i) →
      ∃ r ∈ (processChunksLoop embed fh existing cs st).db.chunks, r.id = i := by
  induction cs with
  | nil => intro st i h; exact h
  | cons c cs ih =>
    intro st i h
    show ∃ r ∈ (processChunksLoop embed fh existing cs
        (processChunkStep embed fh existing st c)).db.chunks, r.id = i
    refine ih _ i ?_
    rcases hls : lookupSlot existing c.chunkIndex c.startLine c.endLine with _ | ex
    · rw [processChunkStep_insert embed fh existing st c hls]
      obtain ⟨r, hr, hid⟩ := h
      refine ⟨r, ?_, hid⟩
      show r ∈ ((insertChunk st.db _ _ _).2).chunks
      rw [insertChunk_chunks]
      exact List.mem_append_left _ hr
    · by_cases hh : ex.contentHash = c.contentHash
      · rw [processChunkStep_reuse embed fh existing st c ex hls hh]
        exact updateChunk_id_present st.db ex.id _ _ _ i h
      · rw [processChunkStep_rehash embed fh existing st c ex hls hh]
        exact updateChunk_id_present st.db ex.id _ _ _ i h

/-- Rows with an id below the autoincrement counter that no remaining slot
lookup targets are untouched by the rest of the loop. -/
theorem processChunksLoop_stable (embed : String → List Nat) (fh : String)
    (existing : List ChunkRow) (i : Nat) (φ : ChunkRow → Prop) (cs : List NewChunk) :
    ∀ st : LoopState, i < st.db.nextId →
      (∀ c ∈ cs, ∀ ex,
        lookupSlot existing c.chunkIndex c.startLine c.endLine = some ex → ¬ ex.id = i) →
      (∀ r ∈ st.db.chunks, r.id = i → φ r) →
      ∀ r ∈ (processChunksLoop embed fh existing cs st).db.chunks, r.id = i → φ r := by
  induction cs with
  | nil => intro st _ _ h; exact h
  | cons c cs ih =>
    intro st hlt hkeys h
    show ∀ r ∈ (processChunksLoop embed fh existing cs
        (processChunkStep embed fh existing st c)).db.chunks, r.id = i → φ r
    refine ih _ ?_ (fun c' hc' => hkeys c' (List.mem_cons_of_mem c hc')) ?_
    · rcases hls : lookupSlot existing c.chunkIndex c.startLine c.endLine with _ | ex
      · rw [processChunkStep_insert embed fh existing st c hls]
        show i < ((insertChunk st.db _ _ _).2).nextId
        rw [insertChunk_nextId]
        omega
      · by_cases hh : ex.contentHash = c.contentHash
        · rw [processChunkStep_reuse embed fh existing st c ex hls hh]
          show i < (updateChunk st.db _ _ _ _).nextId
          rw [updateChunk_nextId]
          exact hlt
        · rw [processChunkStep_rehash embed fh existing st c ex hls hh]
          show i < (updateChunk st.db _ _ _ _).nextId
          rw [updateChunk_nextId]
          exact hlt
    · rcases hls : lookupSlot existing c.chunkIndex c.startLine c.endLine with _ | ex
      · rw [processChunkStep_insert embed fh existing st c hls]
        intro r hr hid
        have hr' : r ∈ ((insertChunk st.db
            ⟨c.filePath, fh, c.chunkIndex, c.startLine, c.endLine, c.contentHash⟩
            (embed c.embeddingText) (some c.embeddingText)).2).chunks := hr
        rw [insertChunk_chunks] at hr'
        rcases List.mem_append.1 hr' with hold | hnew
        · exact h r hold hid
        · exfalso
          have : r.id = st.db.nextId := by
            rcases List.mem_singleton.1 hnew with rfl
            rfl
          omega
      · have hexne : ¬ ex.id = i := hkeys c (List.mem_cons_self c cs) ex hls
        have hupd : ∀ (emb : List Nat) (m : ChunkMeta),
            ∀ r ∈ (updateChunk st.db ex.id m emb (some c.embeddingText)).chunks,
              r.id = i → φ r := by
          intro emb m r hr hid
          rw [updateChunk_chunks] at hr
          obtain ⟨r0, hr0, hre⟩ := List.mem_map.1 hr
          by_cases h0 : r0.id = ex.id
          · exfalso
            rw [if_pos h0] at hre
            rw [← hre, applyMeta_id] at hid
            exact hexne (by rw [← h0]; exact hid)
          · rw [if_neg h0] at hre
            exact hre ▸ h r0 hr0 (by rw [hre]; exact hid)
        by_cases hh : ex.contentHash = c.contentHash
        · rw [processChunkStep_reuse embed fh existing st c ex hls hh]
          exact hupd ex.embedding _
        · rw [processChunkStep_rehash embed fh existing st c ex hls hh]
          exact hupd (embed c.embeddingText) _

/-- Every row carrying the updated id gets the new metadata and embedding. -/
theorem updateChunk_sets (db : DB) (cid : Nat) (m : ChunkMeta) (emb : List Nat)
    (text? : Option String) :
    ∀ r ∈ (updateChunk db cid m emb text?).chunks, r.id = cid →
      r.embedding = emb ∧ r.fileHash = m.fileHash ∧ r.chunkIndex = m.chunkIndex ∧
        r.startLine = m.startLine ∧ r.endLine = m.endLine ∧ r.contentHash = m.contentHash := by
  intro r hr hid
  rw [updateChunk_chunks] at hr
  obtain ⟨r0, hr0, hre⟩ := List.mem_map.1 hr
  by_cases h0 : r0.id = cid
  · rw [if_pos h0] at hre
    rw [← hre]
    simp [applyMeta]
  · rw [if_neg h0] at hre
    rw [← hre] at hid
    exact absurd hid h0

/-- Deleting only ids different from `i` preserves the presence of id `i`. -/
theorem foldl_deleteChunk_id_present (rs : List ChunkRow) :
    ∀ (db : DB) (i : Nat), (∀ ex ∈ rs, ¬ ex.id = i) → (∃ r ∈ db.chunks, r.id = i) →
      ∃ r ∈ (rs.foldl (fun d ex => deleteChunk d ex.id) db).chunks, r.id = i := by
  induction rs with
  | nil => intro db i _ h; exact h
  | cons x xs ih =>
    intro db i hni h
    rw [List.foldl_cons]
    refine ih _ i (fun ex he => hni ex (List.mem_cons_of_mem _ he)) ?_
    obtain ⟨r, hr, hid⟩ := h
    refine ⟨r, ?_, hid⟩
    rw [deleteChunk_eq]
    refine List.mem_filter.2 ⟨hr, ?_⟩
    simp only [decide_eq_true_eq]
    intro hre
    exact hni x (List.mem_cons_self _ _) (by rw [← hre]; exact hid)

end EmbeddingService

namespace EmbeddingService

/-! ## Theorems -/

/-- Claim C4: encoding an embedding vector to its stored byte blob and decoding
the blob back yields the original vector, provided every element is a 32-bit
word (always true for `Float32Array` payloads).  This identity is what both
read paths (pipeline embedding reuse and dense search scoring) rely on. -/
theorem embedding_bytes_roundtrip (v : List Nat) (h : ∀ x ∈ v, x < 4294967296) :
    bytesToVec (vecToBytes v) = v := by
  induction v with
  | nil => rfl
  | cons x xs ih =>
    have hx : x < 4294967296 := h x (List.mem_cons_self x xs)
    have hrest : ∀ y ∈ xs, y < 4294967296 := fun y hy => h y (List.mem_cons_of_mem x hy)
    have hv : vecToBytes (x :: xs)
        = x % 256 :: x / 256 % 256 :: x / 65536 % 256 :: x / 16777216 % 256 :: vecToBytes xs := by
      simp [vecToBytes]
    rw [hv]
    simp only [bytesToVec]
    rw [ih hrest]
    congr 1
    omega

/-- Witness for `embedding_bytes_roundtrip` at a concrete vector. -/
theorem embedding_bytes_roundtrip_witness :
    bytesToVec (vecToBytes [0, 1, 4294967295, 305419896]) = [0, 1, 4294967295, 305419896] :=
  embedding_bytes_roundtrip [0, 1, 4294967295, 305419896] (by decide)

/-- Claim C2 counterexample: for the two-word query `"hotel booking"` with
`requested_k = 3`, the code returns `min(3, 8) = 3`, not the flat `8` the
claim states. -/
theorem adaptiveTopK_two_words_not_eight :
    countQueryWords "hotel booking" = 2 ∧
      adaptiveTopK "hotel booking" 3 = 3 ∧ (3 : Nat) ≠ 8 := by
  refine ⟨by decide, by decide, by decide⟩

/-- Claim C2 (amended): the effective result count is `min(requested_k, 8)`
for queries of at most 2 words, `requested_k` for at most 5 words, and
`min(requested_k + 5, 50)` otherwise. -/
theorem adaptiveTopK_cases (q : String) (k : Nat) :
    (countQueryWords q ≤ 2 → adaptiveTopK q k = min k 8) ∧
      (2 < countQueryWords q → countQueryWords q ≤ 5 → adaptiveTopK q k = k) ∧
      (5 < countQueryWords q → adaptiveTopK q k = min (k + 5) 50) := by
  unfold adaptiveTopK MAX_TOP_K
  refine ⟨fun h2 => by simp [h2], fun h2 h5 => ?_, fun h5 => ?_⟩
  · rw [if_neg (by omega), if_pos h5]
  · rw [if_neg (by omega), if_neg (by omega)]

/-- Witness for `adaptiveTopK_cases`: a six-word query with `requested_k = 20`
gets `min(25, 50) = 25`. -/
theorem adaptiveTopK_cases_witness :
    adaptiveTopK "error handling sequence for payment gateway" 20 = min (20 + 5) 50 :=
  (adaptiveTopK_cases "error handling sequence for payment gateway" 20).2.2 (by decide)

set_option maxRecDepth 8192 in
/-- Claim C3 counterexample: two metadata contexts that are logically equal
maps but list their keys in different insertion orders serialize to
different `JSON.stringify` texts and therefore hash to different values —
the encoding is not canonical under attribute order. -/
theorem computeChunkHash_key_order_matters :
    computeChunkHash ""
        ⟨"t", "i", Json.obj (.cons "a" (Json.str "1") (.cons "b" (Json.str "2") .nil))⟩ ≠
      computeChunkHash ""
        ⟨"t", "i", Json.obj (.cons "b" (Json.str "2") (.cons "a" (Json.str "1") .nil))⟩ := by
  decide

/-- Claim C3 (amended): `computeChunkHash` is the SHA-256 of the
`JSON.stringify` encoding of the three metadata fields plus content, and is
deterministic across runs: equal content, type and intent, and contexts with
equal serializations (in particular identical insertion-ordered contexts)
produce the same hash.  The encoding is not canonical: context key order
changes the serialization and hence the hash, and no whitespace ever enters
the encoding. -/
theorem computeChunkHash_deterministic (c t i : String) (ctx ctx' : Json)
    (h : Json.stringify ctx = Json.stringify ctx') :
    computeChunkHash c ⟨t, i, ctx⟩ = computeChunkHash c ⟨t, i, ctx'⟩ := by
  unfold computeChunkHash
  simp only [Json.stringify, stringifyProps]
  rw [h]

/-- Witness for `computeChunkHash_deterministic` at a concrete context. -/
theorem computeChunkHash_deterministic_witness :
    computeChunkHash "<log/>"
        ⟨"mediator", "logging", Json.obj (.cons "a" (Json.str "1") .nil)⟩ =
      computeChunkHash "<log/>"
        ⟨"mediator", "logging", Json.obj (.cons "a" (Json.str "1") .nil)⟩ :=
  computeChunkHash_deterministic "<log/>" "mediator" "logging"
    (Json.obj (.cons "a" (Json.str "1") .nil)) (Json.obj (.cons "a" (Json.str "1") .nil)) rfl

/-- Claim C6 counterexample: for the file `<then>` / `<drop/>` / `</then>`,
the self-closing `<drop/>` is found self-closing on line 2 by the scan, but
structural wrapper expansion engulfs the bare `<then>`/`</then>` wrappers, so
the chunk emitted for the self-closing element gets the range `[1, 3]` —
not a single line. -/
theorem selfclosing_expanded_range_not_single_line :
    findOpenFrom "drop" 0 (["<then>", "<drop/>", "</then>"].drop 0) = some (1, true) ∧
      findElementRange "drop" ["<then>", "<drop/>", "</then>"] 0 = (1, 3) ∧
      (1 : Nat) ≠ 3 :=
  ⟨by decide, by decide, by decide⟩

/-- Claim C6 (amended): a self-closing element collapses to a single line in
the depth-counting scan — `start_line = end_line` before wrapper expansion;
the final chunk range can widen only by the structural-wrapper expansion
engulfing adjacent bare wrapper tags. -/
theorem selfclosing_single_line_core (tag : String) (lines : List String) (pos i : Nat)
    (h : findOpenFrom tag pos (lines.drop pos) = some (i, true)) :
    findElementRangeCore tag lines pos = (i + 1, i + 1) := by
  unfold findElementRangeCore
  rw [h]

/-- Witness for `selfclosing_single_line_core`: `<drop/>` on line 2 with no
adjacent wrapper. -/
theorem selfclosing_single_line_core_witness :
    findElementRangeCore "drop" ["<a x=\"1\">", "<drop/>", "</a>"] 0 = (2, 2) :=
  selfclosing_single_line_core "drop" ["<a x=\"1\">", "<drop/>", "</a>"] 0 1 (by decide)

/-- Claim C9: for every scan over directories `D'`, no file outside `D'` is
emitted as a deletion (`exists == false`), and the scanner's hash-map entry
of any file outside `D'` is unchanged by the call. -/
theorem scan_frame (fileHashes : List (String × String)) (dirs : List String)
    (fsys : List (String × String)) (p : String) (hout : outsideDirs dirs p) :
    (∀ c ∈ (scanForChanges fileHashes dirs fsys).changes,
        c.fileExists = false → ¬ c.filePath = p) ∧
      lookupA (scanForChanges fileHashes dirs fsys).hashes p = lookupA fileHashes p := by
  have hinv := scanDirs_inv fileHashes dirs fsys dirs ([], []) (fun _ hd => hd)
    (fun kv h => absurd h (List.not_mem_nil kv))
    (fun c h => absurd h (List.not_mem_nil c))
  have hdel : ∀ c ∈ scanDeletions fileHashes dirs (scanCollect fileHashes dirs fsys).1,
      c.fileExists = false →
      (dirs.map normDir).any (fun d => strLead c.filePath d) = true :=
    deletions_inv (dirs.map normDir) (scanCollect fileHashes dirs fsys).1 fileHashes []
      (fun c h => absurd h (List.not_mem_nil c))
  have hA : ∀ c ∈ (scanCollect fileHashes dirs fsys).2 ++
      scanDeletions fileHashes dirs (scanCollect fileHashes dirs fsys).1,
      c.fileExists = false → ¬ c.filePath = p := by
    intro c hc hfalse hpe
    rcases List.mem_append.1 hc with h | h
    · rw [hinv.2 c h] at hfalse
      cases hfalse
    · have hany := hdel c h hfalse
      rw [hpe] at hany
      obtain ⟨nd, hnd, hlead⟩ := List.any_eq_true.1 hany
      obtain ⟨d, hd, hde⟩ := List.mem_map.1 hnd
      rw [← hde, hout d hd] at hlead
      cases hlead
  refine ⟨hA, ?_⟩
  show lookupA ((scanCollect fileHashes dirs fsys).1.foldl (fun m pc => setA m pc.1 pc.2)
    (fileHashes.filter fun ph =>
      ¬ ((scanCollect fileHashes dirs fsys).2 ++
        scanDeletions fileHashes dirs (scanCollect fileHashes dirs fsys).1).any
          fun c => !c.fileExists && c.filePath = ph.1)) p = lookupA fileHashes p
  rw [lookupA_foldl_setA _ _ _ ?hcur, lookupA_filter _ _ _ ?hq]
  case hcur =>
    intro pc hpc hpe
    obtain ⟨d, hd, hlead⟩ := hinv.1 pc hpc
    rw [hpe, hout d hd] at hlead
    cases hlead
  case hq =>
    intro kv hkv hke
    simp only [decide_eq_true_eq]
    intro hany
    obtain ⟨c, hc, hcb⟩ := List.any_eq_true.1 hany
    simp only [Bool.and_eq_true, Bool.not_eq_true', decide_eq_true_eq] at hcb
    exact hA c hc hcb.1 (hcb.2.trans hke)

/-- Witness for `scan_frame`: scanning `/proj/a` with an empty file system
flags the mapped file under `/proj/a` as deleted but leaves the entry of
`/other/y.xml` untouched. -/
theorem scan_frame_witness :
    (∀ c ∈ (scanForChanges [("/proj/a/x.xml", "h1"), ("/other/y.xml", "h2")] ["/proj/a"]
        []).changes, c.fileExists = false → ¬ c.filePath = "/other/y.xml") ∧
      lookupA (scanForChanges [("/proj/a/x.xml", "h1"), ("/other/y.xml", "h2")] ["/proj/a"]
        []).hashes "/other/y.xml"
        = lookupA [("/proj/a/x.xml", "h1"), ("/other/y.xml", "h2")] "/other/y.xml" :=
  scan_frame [("/proj/a/x.xml", "h1"), ("/other/y.xml", "h2")] ["/proj/a"] [] "/other/y.xml"
    (by
      intro d hd
      simp only [List.mem_singleton] at hd
      subst hd
      decide)

/-- Claim C7 counterexample: when the FTS query returns two rows with equal
(negative) ranks, linear normalization degenerates (`range || 1`) and every
row — including the least-negative/worst one — is mapped to 1, not 0. -/
theorem bm25_equal_ranks_worst_not_zero :
    bm25Normalize [(1, -2), (2, -2)] = [(1, 1), (2, 1)] ∧ (1 : ℚ) ≠ 0 := by
  constructor
  · show [((1 : Nat), 1 - ((-2 : ℚ) - -2) / (if (-2 : ℚ) - -2 = 0 then 1 else (-2 : ℚ) - -2)),
      ((2 : Nat), 1 - ((-2 : ℚ) - -2) / (if (-2 : ℚ) - -2 = 0 then 1 else (-2 : ℚ) - -2))]
      = [(1, 1), (2, 1)]
    norm_num
  · norm_num

/-- Claim C7 (amended): for a non-empty FTS result list ordered by rank
ascending (first row = most negative = best, last row = least negative =
worst), all normalized scores lie in `[0, 1]`, the best row is mapped to
exactly 1, the worst row is mapped to exactly 0 whenever its rank differs
from the best rank, and a single-row result is mapped to exactly `[1]`. -/
theorem bm25_normalization (rows : List (Nat × ℚ)) (r0 : Nat × ℚ) (rest : List (Nat × ℚ))
    (heq : rows = r0 :: rest)
    (hmin : ∀ x ∈ rows, r0.2 ≤ x.2)
    (hmax : ∀ x ∈ rows, x.2 ≤ (rows.getLast?.getD r0).2) :
    (∀ s ∈ bm25Normalize rows, 0 ≤ s.2 ∧ s.2 ≤ 1) ∧
      (bm25Normalize rows).head? = some (r0.1, 1) ∧
      (r0.2 < (rows.getLast?.getD r0).2 →
        ((bm25Normalize rows).getLast?.getD (0, 0)).2 = 0) ∧
      (rest = [] → bm25Normalize rows = [(r0.1, 1)]) := by
  subst heq
  have hsome : (r0 :: rest).getLast? = some ((r0 :: rest).getLast?.getD r0) := by
    cases h : (r0 :: rest).getLast? with
    | none => exact absurd (List.getLast?_eq_none_iff.1 h) (List.cons_ne_nil r0 rest)
    | some a => rfl
  set wl := (r0 :: rest).getLast?.getD r0 with hwl
  have hbw : r0.2 ≤ wl.2 := hmax r0 (List.mem_cons_self r0 rest)
  have hnorm : bm25Normalize (r0 :: rest)
      = (r0 :: rest).map fun r =>
          (r.1, 1 - (r.2 - r0.2) / (if wl.2 - r0.2 = 0 then 1 else wl.2 - r0.2)) := rfl
  set range := (if wl.2 - r0.2 = 0 then 1 else wl.2 - r0.2) with hrange
  have hrangepos : 0 < range := by
    rw [hrange]
    split
    · norm_num
    · next h => exact lt_of_le_of_ne (by linarith) (Ne.symm h)
  refine ⟨?_, ?_, ?_, ?_⟩
  · intro s hs
    rw [hnorm] at hs
    obtain ⟨x, hx, hxs⟩ := List.mem_map.1 hs
    have hx1 : r0.2 ≤ x.2 := hmin x hx
    have hx2 : x.2 ≤ wl.2 := hmax x hx
    have hnum0 : 0 ≤ x.2 - r0.2 := by linarith
    constructor
    · rw [← hxs]
      have hdivle : (x.2 - r0.2) / range ≤ 1 := by
        rw [div_le_one hrangepos, hrange]
        split
        · next h => linarith
        · linarith
      simpa using hdivle
    · rw [← hxs]
      have : 0 ≤ (x.2 - r0.2) / range := div_nonneg hnum0 (le_of_lt hrangepos)
      simpa using this
  · rw [hnorm]
    simp
  · intro hlt
    have hne : ¬ wl.2 - r0.2 = 0 := by intro h; linarith
    rw [hnorm, List.getLast?_map, hsome]
    show (1 : ℚ) - (wl.2 - r0.2) / range = 0
    rw [hrange, if_neg hne, div_self hne]
    ring
  · intro hrest
    subst hrest
    rw [hnorm]
    simp

/-- Witness for `bm25_normalization`: two rows with ranks `-3 < -1`. -/
theorem bm25_normalization_witness :
    (∀ s ∈ bm25Normalize [((1 : Nat), (-3 : ℚ)), (2, -1)], 0 ≤ s.2 ∧ s.2 ≤ 1) ∧
      (bm25Normalize [((1 : Nat), (-3 : ℚ)), (2, -1)]).head? = some (1, 1) ∧
      (((1 : Nat), (-3 : ℚ)).2 < ([((1 : Nat), (-3 : ℚ)), (2, -1)].getLast?.getD (1, -3)).2 →
        ((bm25Normalize [((1 : Nat), (-3 : ℚ)), (2, -1)]).getLast?.getD (0, 0)).2 = 0) ∧
      ([((2 : Nat), (-1 : ℚ))] = [] →
        bm25Normalize [((1 : Nat), (-3 : ℚ)), (2, -1)] = [(1, 1)]) :=
  bm25_normalization [((1 : Nat), (-3 : ℚ)), (2, -1)] (1, -3) [(2, -1)] rfl
    (by
      intro x hx
      rcases List.mem_cons.1 hx with h | h
      · rw [h]
      · simp only [List.mem_singleton] at h
        rw [h]
        norm_num)
    (by
      intro x hx
      rcases List.mem_cons.1 hx with h | h
      · rw [h]
        show (-3 : ℚ) ≤ ([((1 : Nat), (-3 : ℚ)), (2, -1)].getLast?.getD (1, -3)).2
        norm_num [List.getLast?]
      · simp only [List.mem_singleton] at h
        rw [h]
        show (-1 : ℚ) ≤ ([((1 : Nat), (-3 : ℚ)), (2, -1)].getLast?.getD (1, -3)).2
        norm_num [List.getLast?])

/-- Claim C8 (amended): the deduplication pass never returns two chunks of
the same file whose line ranges overlap by more than half of the smaller
span — a candidate is dropped exactly when it overlaps an already-kept
chunk, so of any such pair the member kept earlier in the scan order wins
(which need not be the higher-scored one) — the head of the input is always
returned, and on the claim's literal example (`[10,40]` scored higher,
`[20,35]` scored lower, same file) only the higher-scored chunk is
returned. -/
theorem dedup_same_file_overlaps :
    (∀ rs : List ScoredChunk,
        (deduplicateOverlapping rs).Pairwise fun a b => overlapsMoreThanHalf b a = false) ∧
      (∀ (x : ScoredChunk) (rs : List ScoredChunk), x ∈ deduplicateOverlapping (x :: rs)) ∧
      deduplicateOverlapping [exHigher, exLower] = [exHigher] := by
  have hover : overlapsMoreThanHalf exLower exHigher = true := by
    simp only [overlapsMoreThanHalf, exHigher, exLower, OVERLAP_THRESHOLD]
    norm_num
  refine ⟨fun rs => dedup_foldl_pairwise rs [] List.Pairwise.nil, fun x rs => ?_, ?_⟩
  · show x ∈ (x :: rs).foldl _ []
    rw [List.foldl_cons]
    refine dedup_foldl_mem rs _ x ?_
    simp
  · simp [deduplicateOverlapping, hover]

/-- Claim C8 counterexample: with three same-file candidates `exChainA`
(lines 1–10, score 0.9), `exChainB` (5–14, score 0.8) and `exChainC` (9–18,
score 0.7) — already in descending hybrid-score order — `exChainB` is
dropped against the kept `exChainA`, after which `exChainC` (overlapping
the dropped `exChainB` on 6 of 10 lines, beyond the 0.5 threshold) is kept:
of the overlapping pair `(exChainB, exChainC)` the LOWER-scored `exChainC`
is the one returned, refuting the unconditional "only the higher-scored one
is returned". -/
theorem dedup_chain_returns_lower_scored :
    deduplicateOverlapping [exChainA, exChainB, exChainC] = [exChainA, exChainC] ∧
      overlapsMoreThanHalf exChainC exChainB = true ∧
      exChainC.hybridScore < exChainB.hybridScore := by
  have hBA : overlapsMoreThanHalf exChainB exChainA = true := by
    simp only [overlapsMoreThanHalf, exChainA, exChainB, OVERLAP_THRESHOLD]
    norm_num
  have hCA : overlapsMoreThanHalf exChainC exChainA = false := by
    simp only [overlapsMoreThanHalf, exChainA, exChainC, OVERLAP_THRESHOLD]
    norm_num
  have hCB : overlapsMoreThanHalf exChainC exChainB = true := by
    simp only [overlapsMoreThanHalf, exChainB, exChainC, OVERLAP_THRESHOLD]
    norm_num
  refine ⟨?_, hCB, ?_⟩
  · simp [deduplicateOverlapping, hBA, hCA]
  · show (7 / 10 : ℚ) < 8 / 10
    norm_num

/-- Claim C10: when the candidate list already fits in `effective_k`, the MMR
reranker returns it unchanged (no greedy selection, no reordering), for any
similarity function and any `λ`. -/
theorem mmrRerank_small_input_identity (sim : List Nat → List Nat → ℚ)
    (candidates : List ScoredChunk) (k : Nat) (lam : ℚ)
    (h : candidates.length ≤ k) :
    mmrRerank sim candidates k lam = candidates := by
  simp [mmrRerank, h]

/-- Witness for `mmrRerank_small_input_identity`: two candidates, `k = 8`. -/
theorem mmrRerank_small_input_identity_witness :
    mmrRerank (fun _ _ => 0) [exHigher, exLower] 8 (7 / 10) = [exHigher, exLower] :=
  mmrRerank_small_input_identity (fun _ _ => 0) [exHigher, exLower] 8 (7 / 10) (by decide)

/-- Claim C5 counterexample: two single-operation runs of the listed write
operations each break the mirror.  `updateChunk` called with an id that is
absent from `chunks` (here id 5 on a fresh store) updates no chunks row but
still performs the FTS delete-then-insert, orphaning a `chunks_fts` row; and
`insertChunk` called with a supplied but empty `embedding_text` — falsy
under the source's `if (embeddingText)` guard — inserts a chunks row whose
FTS sync is silently skipped, leaving a chunks row with no `chunks_fts`
row. -/
theorem fts_write_ops_break_bijection :
    ¬ ftsBijection (updateChunk emptyDB 5 ⟨"f.xml", "h", 0, 1, 2, "c"⟩ [0] (some "text")) ∧
      ¬ ftsBijection (insertChunk emptyDB ⟨"f.xml", "h", 0, 1, 2, "c"⟩ [0] (some "")).2 := by
  constructor
  · intro h
    obtain ⟨r, hr, -⟩ := h.2 ⟨5, "text"⟩ (by
      rw [updateChunk_some emptyDB 5 ⟨"f.xml", "h", 0, 1, 2, "c"⟩ [0] "text" (by decide)]
      simp [emptyDB])
    rw [updateChunk_chunks] at hr
    simp [emptyDB] at hr
  · intro h
    have hrow := h.1 ⟨1, "f.xml", "h", 0, 1, 2, "c", [0]⟩ (by
      rw [insertChunk_chunks]
      simp [emptyDB])
    have hfts : (insertChunk emptyDB ⟨"f.xml", "h", 0, 1, 2, "c"⟩ [0] (some "")).2.fts
        = [] := rfl
    simp [ftsCount, hfts] at hrow

/-- Claim C5 (amended): in every store state reachable by `insertChunk`,
`updateChunk`, `deleteChunk` and `deleteChunksByFile` with a truthy
(non-empty) `embedding_text` supplied — the `if (embeddingText)` guard skips
the FTS sync for an absent or empty text — and where every `updateChunk`
targets an id present in `chunks`, as all pipeline call sites do, the FTS
mirror is bijective with the chunks table on `chunk_id`: every chunks row
has exactly one `chunks_fts` row and every `chunks_fts` row has a matching
chunks row. -/
theorem fts_mirror_bijective (db : DB) (h : Reachable db) : ftsBijection db :=
  (reachable_DBInv h).2

/-- Claim C1: per chunk, whenever a new chunk's slot
`(chunk_index, start_line, end_line)` matches a stored chunk of the same
file with identical `content_hash`, `processFile` reuses the stored
embedding: the embedder is invoked exactly on the embedding texts of the
non-matching chunks (in order), exactly the matching chunks are counted
reused and the others freshly embedded, and for every matching chunk the
final database holds a row with the matched chunk's DB id, its stored
embedding byte-identical, and the metadata (file hash, slot fields, content
hash) updated — this covers mixed files where only some chunks changed.
Consequently, when every chunk of the file is such a match (an unchanged
file), no embedding is computed and every chunk is reused.  The hypotheses
are standing facts of the store and the chunker: DB rowids are pairwise
distinct and below the autoincrement counter (SQLite PRIMARY KEY
AUTOINCREMENT, proved invariant in `reachable_DBInv`), and the chunk
indexes of one chunker run are pairwise distinct (`chunkIndex` is a
per-file counter). -/
theorem pipeline_reuse_per_chunk (embed : String → List Nat) (fp fh : String)
    (chunks : List NewChunk) (db : DB) (hwf : dbWF db)
    (hkeys : (chunks.map fun c => c.chunkIndex).Nodup) :
    (processFile embed fp fh chunks db).embedCalls
        = ((chunks.filter fun c => ! reuseHit (getChunksByFile db fp) c).map
            fun c => c.embeddingText) ∧
      (processFile embed fp fh chunks db).reused
        = (chunks.filter fun c => reuseHit (getChunksByFile db fp) c).length ∧
      (processFile embed fp fh chunks db).embedded
        = (chunks.filter fun c => ! reuseHit (getChunksByFile db fp) c).length ∧
      (∀ c ∈ chunks, ∀ ex,
        lookupSlot (getChunksByFile db fp) c.chunkIndex c.startLine c.endLine = some ex →
        ex.contentHash = c.contentHash →
        ∃ r ∈ (processFile embed fp fh chunks db).db.chunks,
          r.id = ex.id ∧ r.embedding = ex.embedding ∧ r.fileHash = fh ∧
            r.chunkIndex = c.chunkIndex ∧ r.startLine = c.startLine ∧
            r.endLine = c.endLine ∧ r.contentHash = c.contentHash) ∧
      ((∀ c ∈ chunks, reuseHit (getChunksByFile db fp) c = true) →
        (processFile embed fp fh chunks db).embedCalls = [] ∧
          (processFile embed fp fh chunks db).embedded = 0 ∧
          (processFile embed fp fh chunks db).reused = chunks.length) := by
  have hcalls : (processFile embed fp fh chunks db).embedCalls
      = ((chunks.filter fun c => ! reuseHit (getChunksByFile db fp) c).map
          fun c => c.embeddingText) := by
    have h0 : (processFile embed fp fh chunks db).embedCalls
        = (processChunksLoop embed fh (getChunksByFile db fp) chunks
            ⟨db, [], 0, 0, []⟩).embedCalls := rfl
    rw [h0, processChunksLoop_calls]
    rfl
  have hreused : (processFile embed fp fh chunks db).reused
      = (chunks.filter fun c => reuseHit (getChunksByFile db fp) c).length := by
    have h0 : (processFile embed fp fh chunks db).reused
        = (processChunksLoop embed fh (getChunksByFile db fp) chunks
            ⟨db, [], 0, 0, []⟩).reused := rfl
    rw [h0, processChunksLoop_reusedCount]
    simp
  have hembedded : (processFile embed fp fh chunks db).embedded
      = (chunks.filter fun c => ! reuseHit (getChunksByFile db fp) c).length := by
    have h0 : (processFile embed fp fh chunks db).embedded
        = (processChunksLoop embed fh (getChunksByFile db fp) chunks
            ⟨db, [], 0, 0, []⟩).embedded := rfl
    rw [h0, processChunksLoop_embeddedCount]
    simp
  refine ⟨hcalls, hreused, hembedded, ?_, ?_⟩
  · intro c hc ex hls hh
    obtain ⟨pre, post, hsplit⟩ := List.append_of_mem hc
    subst hsplit
    set E := getChunksByFile db fp with hE
    set st0 : LoopState := (⟨db, [], 0, 0, []⟩ : LoopState) with hst0
    have hexmem : ex ∈ E := lookupSlot_mem E _ _ _ ex hls
    have hexdb : ex ∈ db.chunks := by
      have h' := hexmem
      rw [hE] at h'
      exact List.mem_of_mem_filter h'
    have hexlt : ex.id < db.nextId := hwf.1 ex hexdb
    have hexkey := lookupSlot_key E _ _ _ ex hls
    set st1 := processChunksLoop embed fh E pre st0 with hst1
    set st2 := processChunkStep embed fh E st1 c with hst2
    have hstep2 : st2 = ⟨updateChunk st1.db ex.id
          ⟨c.filePath, fh, c.chunkIndex, c.startLine, c.endLine, c.contentHash⟩
          ex.embedding (some c.embeddingText),
        st1.matched ++ [ex.id], st1.reused + 1, st1.embedded, st1.embedCalls⟩ := by
      rw [hst2]
      exact processChunkStep_reuse embed fh E st1 c ex hls hh
    have hpres1 : ∃ r ∈ st1.db.chunks, r.id = ex.id := by
      rw [hst1]
      exact processChunksLoop_id_present embed fh E pre st0 ex.id ⟨ex, hexdb, rfl⟩
    have hpres2 : ∃ r ∈ st2.db.chunks, r.id = ex.id := by
      rw [hstep2]
      exact updateChunk_id_present st1.db ex.id
        ⟨c.filePath, fh, c.chunkIndex, c.startLine, c.endLine, c.contentHash⟩
        ex.embedding (some c.embeddingText) ex.id hpres1
    have hmono : db.nextId ≤ st1.db.nextId := by
      rw [hst1]
      exact processChunksLoop_nextId_mono embed fh E pre st0
    have hlt2 : ex.id < st2.db.nextId := by
      rw [hstep2]
      show ex.id < (updateChunk st1.db ex.id
          ⟨c.filePath, fh, c.chunkIndex, c.startLine, c.endLine, c.contentHash⟩
          ex.embedding (some c.embeddingText)).nextId
      rw [updateChunk_nextId]
      omega
    have hphi2 : ∀ r ∈ st2.db.chunks, r.id = ex.id →
        r.embedding = ex.embedding ∧ r.fileHash = fh ∧ r.chunkIndex = c.chunkIndex ∧
          r.startLine = c.startLine ∧ r.endLine = c.endLine ∧
          r.contentHash = c.contentHash := by
      rw [hstep2]
      intro r hr hid
      exact updateChunk_sets st1.db ex.id
        ⟨c.filePath, fh, c.chunkIndex, c.startLine, c.endLine, c.contentHash⟩
        ex.embedding (some c.embeddingText) r hr hid
    have hcpost : ((c :: post).map fun c => c.chunkIndex).Nodup :=
      List.Nodup.sublist ((List.sublist_append_right pre (c :: post)).map _) hkeys
    have hcnotin : ¬ c.chunkIndex ∈ (post.map fun c' => c'.chunkIndex) := by
      have h' := hcpost
      rw [List.map_cons, List.nodup_cons] at h'
      exact h'.1
    have hkeyspost : ∀ c' ∈ post, ∀ ex',
        lookupSlot E c'.chunkIndex c'.startLine c'.endLine = some ex' →
        ¬ ex'.id = ex.id := by
      intro c' hc' ex' hls' heq
      have hk' := lookupSlot_key E _ _ _ ex' hls'
      have hm0 : ex' ∈ E := lookupSlot_mem E _ _ _ ex' hls'
      have hm' : ex' ∈ db.chunks := by
        rw [hE] at hm0
        exact List.mem_of_mem_filter hm0
      have hexx : ex' = ex := List.inj_on_of_nodup_map hwf.2 hm' hexdb heq
      apply hcnotin
      have hceq : c.chunkIndex = c'.chunkIndex := by
        rw [← hexkey.1, ← hexx]
        exact hk'.1
      rw [hceq]
      exact List.mem_map_of_mem _ hc'
    have hmatchedF : ex.id ∈ (processChunksLoop embed fh E (pre ++ c :: post) st0).matched := by
      rw [processChunksLoop_matched]
      refine List.mem_append_right _ (List.mem_filterMap.2 ⟨c, ?_, ?_⟩)
      · exact List.mem_append_right pre (List.mem_cons_self c post)
      · simp [hls]
    have hdelkeys : ∀ ex' ∈ (E.filter fun e =>
        ¬ e.id ∈ (processChunksLoop embed fh E (pre ++ c :: post) st0).matched),
        ¬ ex'.id = ex.id := by
      intro ex' hmem' heq
      have hpred := List.of_mem_filter hmem'
      simp only [decide_eq_true_eq] at hpred
      exact hpred (by rw [heq]; exact hmatchedF)
    have hloopsplit : processChunksLoop embed fh E (pre ++ c :: post) st0
        = processChunksLoop embed fh E post st2 :=
      (processChunksLoop_append embed fh E pre (c :: post) st0).trans rfl
    have hproc : (processFile embed fp fh (pre ++ c :: post) db).db
        = ((E.filter fun e =>
            ¬ e.id ∈ (processChunksLoop embed fh E (pre ++ c :: post) st0).matched).foldl
            (fun d e => deleteChunk d e.id)
            (processChunksLoop embed fh E (pre ++ c :: post) st0).db) := rfl
    rw [hloopsplit] at hdelkeys
    rw [hproc, hloopsplit]
    obtain ⟨r, hrmem, hrid⟩ :=
      foldl_deleteChunk_id_present
        (E.filter fun e => ¬ e.id ∈ (processChunksLoop embed fh E post st2).matched)
        (processChunksLoop embed fh E post st2).db ex.id hdelkeys
        (processChunksLoop_id_present embed fh E post st2 ex.id hpres2)
    refine ⟨r, hrmem, hrid, ?_⟩
    exact processChunksLoop_stable embed fh E ex.id _ post st2 hlt2 hkeyspost hphi2 r
      (mem_chunks_foldl_deleteChunk _ _ r hrmem) hrid
  · intro hall
    have h1 : (chunks.filter fun c => ! reuseHit (getChunksByFile db fp) c) = [] :=
      List.filter_eq_nil_iff.2 (fun c hcin => by simp [hall c hcin])
    have h2 : (chunks.filter fun c => reuseHit (getChunksByFile db fp) c) = chunks :=
      List.filter_eq_self.2 (fun c hcin => hall c hcin)
    refine ⟨?_, ?_, ?_⟩
    · simp [hcalls, h1]
    · simp [hembedded, h1]
    · simp [hreused, h2]

/-- Witness for `pipeline_reuse_per_chunk`: one stored chunk, one identical
re-chunked chunk — the per-chunk reuse conclusion at a concrete store. -/
theorem pipeline_reuse_per_chunk_witness :
    (processFile (fun _ => [9]) "f.xml" "h1" exPipeChunks exPipeDB).embedCalls
        = ((exPipeChunks.filter fun c => ! reuseHit (getChunksByFile exPipeDB "f.xml") c).map
            fun c => c.embeddingText) ∧
      (processFile (fun _ => [9]) "f.xml" "h1" exPipeChunks exPipeDB).reused
        = (exPipeChunks.filter fun c => reuseHit (getChunksByFile exPipeDB "f.xml") c).length ∧
      (processFile (fun _ => [9]) "f.xml" "h1" exPipeChunks exPipeDB).embedded
        = (exPipeChunks.filter fun c => ! reuseHit (getChunksByFile exPipeDB "f.xml") c).length ∧
      (∀ c ∈ exPipeChunks, ∀ ex,
        lookupSlot (getChunksByFile exPipeDB "f.xml") c.chunkIndex c.startLine c.endLine
            = some ex →
        ex.contentHash = c.contentHash →
        ∃ r ∈ (processFile (fun _ => [9]) "f.xml" "h1" exPipeChunks exPipeDB).db.chunks,
          r.id = ex.id ∧ r.embedding = ex.embedding ∧ r.fileHash = "h1" ∧
            r.chunkIndex = c.chunkIndex ∧ r.startLine = c.startLine ∧
            r.endLine = c.endLine ∧ r.contentHash = c.contentHash) ∧
      ((∀ c ∈ exPipeChunks, reuseHit (getChunksByFile exPipeDB "f.xml") c = true) →
        (processFile (fun _ => [9]) "f.xml" "h1" exPipeChunks exPipeDB).embedCalls = [] ∧
          (processFile (fun _ => [9]) "f.xml" "h1" exPipeChunks exPipeDB).embedded = 0 ∧
          (processFile (fun _ => [9]) "f.xml" "h1" exPipeChunks exPipeDB).reused
            = exPipeChunks.length) :=
  pipeline_reuse_per_chunk (fun _ => [9]) "f.xml" "h1" exPipeChunks exPipeDB
    (show (∀ r ∈ exPipeDB.chunks, r.id < exPipeDB.nextId) ∧
        (exPipeDB.chunks.map fun r => r.id).Nodup by decide)
    (by decide)

/-- Witness for `fts_mirror_bijective`: an insert followed by an update and
an unrelated delete keeps the mirror bijective. -/
theorem fts_mirror_bijective_witness :
    ftsBijection
      (deleteChunk
        (updateChunk (insertChunk emptyDB ⟨"f.xml", "h", 0, 1, 2, "c"⟩ [0] (some "t")).2
          1 ⟨"f.xml", "h2", 0, 1, 2, "c2"⟩ [1] (some "t2"))
        7) :=
  fts_mirror_bijective _
    (Reachable.delete _ 7
      (Reachable.update _ 1 ⟨"f.xml", "h2", 0, 1, 2, "c2"⟩ [1] "t2"
        (Reachable.insert emptyDB ⟨"f.xml", "h", 0, 1, 2, "c"⟩ [0] "t" Reachable.empty
          (by decide))
        (by decide)
        (by simp [insertChunk_chunks, emptyDB])))

end EmbeddingService
